import Mathlib

/-!
Verification of the MercuryEngine (Lume) render-graph scheduler and its
hazard/barrier-insertion policy, shallowly embedded from
`src/lume/lume-renderer/src/graph/mod.rs` and the Vulkan barrier synthesizer in
`src/lume/lume-rhi/src/vulkan/mod.rs`.

Modelling conventions:
* `NodeId`/`ResourceId` are plain `Nat` values (the Rust newtypes wrap `usize`).
* A pass (trait object `RenderGraphNode`) is abstracted by the number of
  command buffers its `execute` returns; the k-th buffer returned by node `i`
  is the opaque token `CmdBuf.pass i k`.  Barrier command buffers record the
  exact sequence of `pipeline_barrier_buffer` / `pipeline_barrier_texture`
  calls made against the encoder.
* `HashSet`/`HashMap` are modelled by lists with membership / first-match
  lookup; `HashMap::insert` is modelled by consing (the newest binding wins).
* Vulkan pipeline-stage and access masks are `Nat` bit masks with the concrete
  values of the corresponding `vk::PipelineStageFlags` / `vk::AccessFlags`
  constants.
-/

namespace Lume

/-- `ImageLayout` from lume-rhi (`src/lume/lume-rhi/src/lib.rs`). -/
inductive ImageLayout where
  | Undefined
  | TransferDst
  | TransferSrc
  | ShaderReadOnly
  | ColorAttachment
  | DepthStencilAttachment
  | General
  | PresentSrc
deriving DecidableEq, Repr

/-- `ResourceUsage` from the render graph. -/
inductive ResourceUsage where
  | Read
  | Write
  | ReadWrite
deriving DecidableEq, Repr

/-- `ResourceUsage::is_write`. -/
def ResourceUsage.is_write : ResourceUsage → Bool
  | .Write => true
  | .ReadWrite => true
  | .Read => false

/-- `ResourceUsage::is_read`. -/
def ResourceUsage.is_read : ResourceUsage → Bool
  | .Read => true
  | .ReadWrite => true
  | .Write => false

/-- `TextureBarrierHint` from the render graph. -/
structure TextureBarrierHint where
  need_layout : ImageLayout
  after_pass_layout : Option ImageLayout
deriving DecidableEq, Repr

/-- `ResourceHandle`: a buffer (with its byte size, the only datum the graph
reads from it, via `Buffer::size`) or a texture. -/
inductive ResourceHandle where
  | Buffer (size : Nat)
  | Texture
deriving DecidableEq, Repr

/-- One declared usage entry: `(ResourceId, ResourceUsage, Option<TextureBarrierHint>)`. -/
abbrev UsageEntry := Nat × ResourceUsage × Option TextureBarrierHint

/-- A registered pass: its declared resource usages (one entry of the
`node_resource_usage` vector) together with the number of command buffers its
trait-object `execute` returns (the pass body is otherwise opaque). -/
structure NodeSpec where
  usage : List UsageEntry
  ncmds : Nat
deriving DecidableEq, Repr

/-- The render graph (`RenderGraph` struct).  The parallel vectors `nodes` and
`node_resource_usage` are merged into one list of `NodeSpec` (they are pushed
in lockstep by `add_node`); `resources` is the `HashMap<ResourceId,
ResourceHandle>` as an association list. -/
structure RenderGraph where
  nodes : List NodeSpec
  edges : List (Nat × Nat)
  resources : List (Nat × ResourceHandle)
  next_node_id : Nat
  next_resource_id : Nat

/-- `RenderGraph::new` / `Default`. -/
def RenderGraph.new : RenderGraph := ⟨[], [], [], 0, 0⟩

/-- `RenderGraph::add_node`. -/
def RenderGraph.add_node (g : RenderGraph) (usage : List UsageEntry) (ncmds : Nat) :
    RenderGraph × Nat :=
  ({ g with
      nodes := g.nodes ++ [⟨usage, ncmds⟩],
      next_node_id := g.next_node_id + 1 }, g.next_node_id)

/-- `RenderGraph::add_edge`: total, just records the pair. -/
def RenderGraph.add_edge (g : RenderGraph) (before after : Nat) : RenderGraph :=
  { g with edges := g.edges ++ [(before, after)] }

/-- `RenderGraph::add_resource`. -/
def RenderGraph.add_resource (g : RenderGraph) (h : ResourceHandle) : RenderGraph × Nat :=
  ({ g with
      resources := (g.next_resource_id, h) :: g.resources,
      next_resource_id := g.next_resource_id + 1 }, g.next_resource_id)

/-- `self.resources.get(rid)`. -/
def RenderGraph.lookupRes (g : RenderGraph) (rid : Nat) : Option ResourceHandle :=
  g.resources.lookup rid

/-- The usage list of node `index`:
`self.node_resource_usage.get(index).map(|u| u.as_slice()).unwrap_or(&[])`. -/
def RenderGraph.usageOf (g : RenderGraph) (index : Nat) : List UsageEntry :=
  ((g.nodes.get? index).map NodeSpec.usage).getD []

/-! ## Topological scheduler (`RenderGraph::topological_order`) -/

/-- One step of the edge scan: skip edges whose endpoints are not both in
range, otherwise bump the target's in-degree and append the target to the
source's adjacency list. -/
def degStep (n : Nat) (p : List Nat × List (List Nat)) (e : Nat × Nat) :
    List Nat × List (List Nat) :=
  if e.1 < n ∧ e.2 < n then
    (p.1.set e.2 (p.1.getD e.2 0 + 1), p.2.set e.1 (p.2.getD e.1 [] ++ [e.2]))
  else p

/-- The in-degree array and adjacency lists built by the edge scan at the top
of `topological_order`. -/
def buildDegrees (n : Nat) (edges : List (Nat × Nat)) : List Nat × List (List Nat) :=
  edges.foldl (degStep n) (List.replicate n 0, List.replicate n [])

/-- The inner `for v in &out_edges[u]` loop: decrement each successor's
in-degree and push it when the count reaches zero.  The stack is a list whose
head is the top (Rust `Vec::push`/`pop` operate on the tail). -/
def processSuccs : List Nat → List Nat → List Nat → List Nat × List Nat
  | inDeg, stack, [] => (inDeg, stack)
  | inDeg, stack, v :: vs =>
    let d := inDeg.getD v 0 - 1
    processSuccs (inDeg.set v d) (if d = 0 then v :: stack else stack) vs

/-- The `while let Some(u) = stack.pop()` loop, with explicit fuel.  Each
iteration pops one node, so `n` units of fuel always suffice (each node is
pushed at most once). -/
def topoLoop (outE : List (List Nat)) : Nat → List Nat → List Nat → List Nat → List Nat
  | 0, _, _, order => order
  | fuel + 1, inDeg, stack, order =>
    match stack with
    | [] => order
    | u :: rest =>
      let p := processSuccs inDeg rest (outE.getD u [])
      topoLoop outE fuel p.1 p.2 (order ++ [u])

/-- The order list computed by the loop of `topological_order`: the initial
stack is `(0..n).filter(|i| in_degree[i] == 0).collect()` with `Vec::pop`
taking the largest index first, i.e. (head = top) the reversed seed list. -/
def topoOrderRun (n : Nat) (edges : List (Nat × Nat)) : List Nat :=
  topoLoop (buildDegrees n edges).2 n (buildDegrees n edges).1
    ((List.range n).filter (fun i => (buildDegrees n edges).1.getD i 0 = 0)).reverse []

/-- `RenderGraph::topological_order`: the computed order, or a cycle error when
it does not contain all `n` nodes. -/
def RenderGraph.topological_order (g : RenderGraph) : Except String (List Nat) :=
  if (topoOrderRun g.nodes.length g.edges).length = g.nodes.length
  then .ok (topoOrderRun g.nodes.length g.edges)
  else .error "Render graph has a cycle"

/-! ## Executor (`RenderGraph::execute`) -/

/-- A command buffer in the returned list: either a standalone barrier command
buffer (recording the buffer barriers `(rid, offset, size)` and texture
barriers `(rid, old_layout, new_layout)` in encoder order), or the `k`-th
opaque command buffer returned by node `i`'s `execute`. -/
inductive CmdBuf where
  | barrier (bufs : List (Nat × Nat × Nat)) (texs : List (Nat × ImageLayout × ImageLayout))
  | pass (node : Nat) (k : Nat)
deriving DecidableEq, Repr

/-- Hazard-tracker state: `resources_written` (set as list, membership only)
and `texture_layout` (map as association list, first match wins). -/
structure HazardState where
  written : List Nat
  texLayout : List (Nat × ImageLayout)
deriving DecidableEq, Repr

/-- `HashSet::insert`. -/
def insertWritten (w : List Nat) (rid : Nat) : List Nat :=
  if rid ∈ w then w else rid :: w

/-- `HashMap::insert` (newest binding first; `List.lookup` finds it). -/
def setLayout (m : List (Nat × ImageLayout)) (rid : Nat) (l : ImageLayout) :
    List (Nat × ImageLayout) :=
  (rid, l) :: m

/-- `texture_layout.get(rid).copied().unwrap_or(ImageLayout::Undefined)`. -/
def getLayout (m : List (Nat × ImageLayout)) (rid : Nat) : ImageLayout :=
  (m.lookup rid).getD ImageLayout.Undefined

/-- The buffer branch of the per-usage hazard scan: a buffer resource already
in the written set unconditionally joins `need_buffer_barrier`. -/
def bufBarrierNeeded (g : RenderGraph) (written : List Nat) (u : UsageEntry) : Option Nat :=
  if !u.2.1.is_read && !u.2.1.is_write then none
  else if u.1 ∈ written then
    match g.lookupRes u.1 with
    | some (ResourceHandle.Buffer _) => some u.1
    | _ => none
  else none

/-- The texture branch of the per-usage hazard scan: a written texture joins
`need_texture_barriers` only when a hint is present and its `need_layout`
differs from the tracked layout (defaulting to `Undefined`). -/
def texBarrierNeeded (g : RenderGraph) (written : List Nat)
    (texLayout : List (Nat × ImageLayout)) (u : UsageEntry) :
    Option (Nat × ImageLayout × ImageLayout) :=
  if !u.2.1.is_read && !u.2.1.is_write then none
  else if u.1 ∈ written then
    match g.lookupRes u.1 with
    | some ResourceHandle.Texture =>
      match u.2.2 with
      | some hint =>
        if getLayout texLayout u.1 ≠ hint.need_layout then
          some (u.1, getLayout texLayout u.1, hint.need_layout)
        else none
      | none => none
    | _ => none
  else none

/-- Recording the collected buffer barriers against the encoder:
`encoder.pipeline_barrier_buffer(b, 0, b.size())` for each buffer handle. -/
def recordBufBarriers (g : RenderGraph) (rids : List Nat) : List (Nat × Nat × Nat) :=
  rids.filterMap (fun rid =>
    match g.lookupRes rid with
    | some (ResourceHandle.Buffer size) => some (rid, 0, size)
    | _ => none)

/-- Recording the collected texture barriers against the encoder. -/
def recordTexBarriers (g : RenderGraph) (l : List (Nat × ImageLayout × ImageLayout)) :
    List (Nat × ImageLayout × ImageLayout) :=
  l.filterMap (fun t =>
    match g.lookupRes t.1 with
    | some ResourceHandle.Texture => some t
    | _ => none)

/-- The post-pass state update for one usage entry: writes mark the resource
written (and move a hinted texture to `after_pass_layout`, defaulting to
`need_layout`); a read of a hinted texture records `need_layout` as tracked. -/
def updStep (g : RenderGraph) (st : HazardState) (u : UsageEntry) : HazardState :=
  if u.2.1.is_write then
    { written := insertWritten st.written u.1,
      texLayout :=
        match g.lookupRes u.1, u.2.2 with
        | some ResourceHandle.Texture, some hint =>
          setLayout st.texLayout u.1 (hint.after_pass_layout.getD hint.need_layout)
        | _, _ => st.texLayout }
  else
    match g.lookupRes u.1, u.2.2 with
    | some ResourceHandle.Texture, some hint =>
      { st with texLayout := setLayout st.texLayout u.1 hint.need_layout }
    | _, _ => st

/-- The command buffers node `index` returns from its `execute`. -/
def RenderGraph.passCmds (g : RenderGraph) (index : Nat) : List CmdBuf :=
  (List.range (((g.nodes.get? index).map NodeSpec.ncmds).getD 0)).map (CmdBuf.pass index)

/-- One iteration of the executor walk for the pass at `index`: collect the
needed barriers, emit them (if any) as one standalone command buffer preceding
the pass's own command buffers, then update the hazard state. -/
def execPass (g : RenderGraph) (st : HazardState) (index : Nat) : List CmdBuf × HazardState :=
  let usage := g.usageOf index
  let needBuf := usage.filterMap (bufBarrierNeeded g st.written)
  let needTex := usage.filterMap (texBarrierNeeded g st.written st.texLayout)
  let barrierCmds :=
    if ¬needBuf = [] ∨ ¬needTex = [] then
      [CmdBuf.barrier (recordBufBarriers g needBuf) (recordTexBarriers g needTex)]
    else []
  (barrierCmds ++ g.passCmds index, usage.foldl (updStep g) st)

/-- The executor's walk over the scheduled order, collecting command buffers. -/
def execLoop (g : RenderGraph) (st : HazardState) : List Nat → List CmdBuf
  | [] => []
  | i :: rest => (execPass g st i).1 ++ execLoop g (execPass g st i).2 rest

/-- The hazard state after walking a list of passes. -/
def execStateAfter (g : RenderGraph) (st : HazardState) : List Nat → HazardState
  | [] => st
  | i :: rest => execStateAfter g (execPass g st i).2 rest

/-- Initial hazard state: empty written set, empty layout map. -/
def initState : HazardState := ⟨[], []⟩

/-- `RenderGraph::execute`: topological order first (failing fast on a cycle),
then the hazard walk. -/
def RenderGraph.execute (g : RenderGraph) : Except String (List CmdBuf) :=
  match g.topological_order with
  | .error e => .error e
  | .ok order => .ok (execLoop g initState order)

/-- Node `i` declares a write (usage `Write` or `ReadWrite`) of resource `r`. -/
def RenderGraph.writesRes (g : RenderGraph) (i r : Nat) : Prop :=
  ∃ u ∈ g.usageOf i, u.1 = r ∧ u.2.1.is_write = true

/-! ## Edge validity, paths and cycles -/

/-- The edges whose endpoints are both registered node indices; out-of-range
edges are skipped by the scheduler's edge scan. -/
def validE (n : Nat) (edges : List (Nat × Nat)) : List (Nat × Nat) :=
  edges.filter (fun e => decide (e.1 < n ∧ e.2 < n))

/-- A directed cycle in an edge list: a nonempty vertex list that is chained by
edges and whose last element has an edge back to the head. -/
def isCycle (E : List (Nat × Nat)) : List Nat → Prop
  | [] => False
  | v :: vs => List.Chain (fun a b => (a, b) ∈ E) v vs ∧ (vs.getLastD v, v) ∈ E

/-- Position of the first occurrence of `v` in `l` (length of `l` if absent). -/
def posIn : List Nat → Nat → Nat
  | [], _ => 0
  | x :: xs, v => if x = v then 0 else posIn xs v + 1

/-! ## Barrier synthesizer (`image_barrier_stages_access`, lume-rhi Vulkan backend)

Pipeline-stage and access masks as the concrete Vulkan bit values. -/

def TOP_OF_PIPE : Nat := 0x1
def VERTEX_SHADER : Nat := 0x8
def FRAGMENT_SHADER : Nat := 0x80
def EARLY_FRAGMENT_TESTS : Nat := 0x100
def LATE_FRAGMENT_TESTS : Nat := 0x200
def COLOR_ATTACHMENT_OUTPUT : Nat := 0x400
def COMPUTE_SHADER : Nat := 0x800
def TRANSFER : Nat := 0x1000
def BOTTOM_OF_PIPE : Nat := 0x2000
def ALL_COMMANDS : Nat := 0x10000

def ACCESS_NONE : Nat := 0
def SHADER_READ : Nat := 0x20
def SHADER_WRITE : Nat := 0x40
def COLOR_ATTACHMENT_WRITE : Nat := 0x100
def DEPTH_STENCIL_ATTACHMENT_WRITE : Nat := 0x400
def TRANSFER_READ : Nat := 0x800
def TRANSFER_WRITE : Nat := 0x1000
def MEMORY_READ : Nat := 0x8000
def MEMORY_WRITE : Nat := 0x10000

/-- The combined vertex | fragment | compute shader stage mask used for
shader-read destinations. -/
def shader_stages : Nat := VERTEX_SHADER ||| FRAGMENT_SHADER ||| COMPUTE_SHADER

/-- The attachment-output stage: early+late fragment tests for depth formats,
color-attachment-output otherwise. -/
def attach_stage (is_depth : Bool) : Nat :=
  if is_depth then EARLY_FRAGMENT_TESTS ||| LATE_FRAGMENT_TESTS else COLOR_ATTACHMENT_OUTPUT

/-- The `color_write` local of the source: depth-stencil-attachment-write for
depth formats, color-attachment-write otherwise. -/
def color_write (is_depth : Bool) : Nat :=
  if is_depth then DEPTH_STENCIL_ATTACHMENT_WRITE else COLOR_ATTACHMENT_WRITE

/-- `image_barrier_stages_access` from the Vulkan backend: translates an
`(old_layout, new_layout, is_depth)` triple into
`(src_stage, src_access, dst_stage, dst_access)` masks. -/
def image_barrier_stages_access (old_layout new_layout : ImageLayout) (is_depth : Bool) :
    Nat × Nat × Nat × Nat :=
  match old_layout, new_layout with
  | .Undefined, .ColorAttachment
  | .PresentSrc, .ColorAttachment
  | .Undefined, .DepthStencilAttachment
  | .PresentSrc, .DepthStencilAttachment =>
    (TOP_OF_PIPE, ACCESS_NONE, attach_stage is_depth, color_write is_depth)
  | .ColorAttachment, .PresentSrc
  | .DepthStencilAttachment, .PresentSrc =>
    (attach_stage is_depth, color_write is_depth, BOTTOM_OF_PIPE, MEMORY_READ)
  | .Undefined, .TransferDst =>
    (TOP_OF_PIPE, ACCESS_NONE, TRANSFER, TRANSFER_WRITE)
  | .TransferDst, .ShaderReadOnly =>
    (TRANSFER, TRANSFER_WRITE, shader_stages, SHADER_READ)
  | .TransferDst, .TransferSrc =>
    (TRANSFER, TRANSFER_WRITE, TRANSFER, TRANSFER_READ)
  | .TransferSrc, .ShaderReadOnly =>
    (TRANSFER, TRANSFER_READ, shader_stages, SHADER_READ)
  | .TransferSrc, .TransferDst =>
    (TRANSFER, TRANSFER_READ, TRANSFER, TRANSFER_WRITE)
  | .ShaderReadOnly, .ColorAttachment
  | .ShaderReadOnly, .DepthStencilAttachment =>
    (shader_stages, SHADER_READ, attach_stage is_depth, color_write is_depth)
  | .ColorAttachment, .ShaderReadOnly
  | .DepthStencilAttachment, .ShaderReadOnly =>
    (attach_stage is_depth, color_write is_depth, shader_stages, SHADER_READ)
  | .General, .ShaderReadOnly =>
    (COMPUTE_SHADER, SHADER_WRITE, shader_stages, SHADER_READ)
  | .General, .ColorAttachment
  | .General, .DepthStencilAttachment =>
    (COMPUTE_SHADER, SHADER_WRITE, attach_stage is_depth, color_write is_depth)
  | .ShaderReadOnly, .General =>
    (shader_stages, SHADER_READ, COMPUTE_SHADER, SHADER_WRITE)
  | .ColorAttachment, .General
  | .DepthStencilAttachment, .General =>
    (attach_stage is_depth, color_write is_depth, COMPUTE_SHADER, SHADER_WRITE)
  | .Undefined, .General =>
    (TOP_OF_PIPE, ACCESS_NONE, COMPUTE_SHADER, SHADER_WRITE)
  | _, _ =>
    (ALL_COMMANDS, MEMORY_READ ||| MEMORY_WRITE, ALL_COMMANDS, MEMORY_READ ||| MEMORY_WRITE)

/-- The conservative full-pipeline fallback barrier. -/
def fallback_barrier : Nat × Nat × Nat × Nat :=
  (ALL_COMMANDS, MEMORY_READ ||| MEMORY_WRITE, ALL_COMMANDS, MEMORY_READ ||| MEMORY_WRITE)

/-- Modelled from the spec: the layout-transition table of section 4.4,
written independently from its rows (with the depth substitution of claim C7),
extended by the two transitions the code additionally recognizes —
TransferSrc to ShaderReadOnly and Undefined to General — with every remaining
pair mapped to the conservative fallback.  Used as the comparison point for
the refinement claim about `image_barrier_stages_access`. -/
def spec_layout_table (old_layout new_layout : ImageLayout) (is_depth : Bool) :
    Nat × Nat × Nat × Nat :=
  match old_layout, new_layout with
  | .Undefined, .ColorAttachment | .PresentSrc, .ColorAttachment
  | .Undefined, .DepthStencilAttachment | .PresentSrc, .DepthStencilAttachment =>
    (TOP_OF_PIPE, ACCESS_NONE, attach_stage is_depth, color_write is_depth)
  | .ColorAttachment, .PresentSrc | .DepthStencilAttachment, .PresentSrc =>
    (attach_stage is_depth, color_write is_depth, BOTTOM_OF_PIPE, MEMORY_READ)
  | .Undefined, .TransferDst => (TOP_OF_PIPE, ACCESS_NONE, TRANSFER, TRANSFER_WRITE)
  | .TransferDst, .ShaderReadOnly => (TRANSFER, TRANSFER_WRITE, shader_stages, SHADER_READ)
  | .TransferDst, .TransferSrc => (TRANSFER, TRANSFER_WRITE, TRANSFER, TRANSFER_READ)
  | .TransferSrc, .TransferDst => (TRANSFER, TRANSFER_READ, TRANSFER, TRANSFER_WRITE)
  | .ShaderReadOnly, .ColorAttachment | .ShaderReadOnly, .DepthStencilAttachment =>
    (shader_stages, SHADER_READ, attach_stage is_depth, color_write is_depth)
  | .ColorAttachment, .ShaderReadOnly | .DepthStencilAttachment, .ShaderReadOnly =>
    (attach_stage is_depth, color_write is_depth, shader_stages, SHADER_READ)
  | .General, .ShaderReadOnly => (COMPUTE_SHADER, SHADER_WRITE, shader_stages, SHADER_READ)
  | .General, .ColorAttachment | .General, .DepthStencilAttachment =>
    (COMPUTE_SHADER, SHADER_WRITE, attach_stage is_depth, color_write is_depth)
  | .ShaderReadOnly, .General => (shader_stages, SHADER_READ, COMPUTE_SHADER, SHADER_WRITE)
  | .ColorAttachment, .General | .DepthStencilAttachment, .General =>
    (attach_stage is_depth, color_write is_depth, COMPUTE_SHADER, SHADER_WRITE)
  | .TransferSrc, .ShaderReadOnly => (TRANSFER, TRANSFER_READ, shader_stages, SHADER_READ)
  | .Undefined, .General => (TOP_OF_PIPE, ACCESS_NONE, COMPUTE_SHADER, SHADER_WRITE)
  | _, _ => fallback_barrier

/-! ## Concrete example graphs for the spec's scenarios -/

/-- Scenario B graph: resource 0 is a buffer of size 16; pass 0 writes it,
pass 1 reads it, with edge 0 before 1; each pass returns one command buffer. -/
def gScenB : RenderGraph :=
  { nodes := [⟨[(0, .Write, none)], 1⟩, ⟨[(0, .Read, none)], 1⟩],
    edges := [(0, 1)],
    resources := [(0, .Buffer 16)],
    next_node_id := 2, next_resource_id := 1 }

/-- Scenario D graph: texture 0; pass 0 writes it with hint
(need ColorAttachment, after ShaderReadOnly); pass 1 reads it with hint
(need ShaderReadOnly). -/
def gScenD : RenderGraph :=
  { nodes := [⟨[(0, .Write, some ⟨.ColorAttachment, some .ShaderReadOnly⟩)], 1⟩,
              ⟨[(0, .Read, some ⟨.ShaderReadOnly, none⟩)], 1⟩],
    edges := [(0, 1)],
    resources := [(0, .Texture)],
    next_node_id := 2, next_resource_id := 1 }

/-- Scenario E graph: like D but pass 0's hint has no after-pass layout. -/
def gScenE : RenderGraph :=
  { nodes := [⟨[(0, .Write, some ⟨.ColorAttachment, none⟩)], 1⟩,
              ⟨[(0, .Read, some ⟨.ShaderReadOnly, none⟩)], 1⟩],
    edges := [(0, 1)],
    resources := [(0, .Texture)],
    next_node_id := 2, next_resource_id := 1 }

/-- Scenario C graph: three passes in a 3-cycle of edges. -/
def gScenC : RenderGraph :=
  { nodes := [⟨[], 1⟩, ⟨[], 1⟩, ⟨[], 1⟩],
    edges := [(0, 1), (1, 2), (2, 0)],
    next_node_id := 3, next_resource_id := 0,
    resources := [] }

/-- Tie-break example: passes 0, 1, 2 with the single edge 0 before 2;
passes 0 and 1 are simultaneously ready and the stack pops 1 first. -/
def gTie : RenderGraph :=
  { nodes := [⟨[], 1⟩, ⟨[], 1⟩, ⟨[], 1⟩],
    edges := [(0, 2)],
    next_node_id := 3, next_resource_id := 0,
    resources := [] }

/-- One-node graph with an out-of-range self-loop edge (5, 5). -/
def gLoopInvalid : RenderGraph :=
  { nodes := [⟨[], 1⟩],
    edges := [],
    next_node_id := 1, next_resource_id := 0,
    resources := [] }

/-- Multi-usage example: pass 0 writes texture 0 (hinted) and buffer 1;
pass 1 reads both.  Used to exercise the state-update rules on passes that
declare more than one resource. -/
def gMulti : RenderGraph :=
  { nodes := [⟨[(0, .Write, some ⟨.ColorAttachment, some .ShaderReadOnly⟩),
                (1, .Write, none)], 1⟩,
              ⟨[(0, .Read, some ⟨.ShaderReadOnly, none⟩), (1, .Read, none)], 1⟩],
    edges := [(0, 1)],
    resources := [(0, .Texture), (1, .Buffer 4)],
    next_node_id := 2, next_resource_id := 2 }

/-- Chain example for C9: buffer 0 written by pass 0, read by passes 1 and 2,
with edges forcing the order 0, 1, 2. -/
def gChain : RenderGraph :=
  { nodes := [⟨[(0, .Write, none)], 1⟩, ⟨[(0, .Read, none)], 1⟩, ⟨[(0, .Read, none)], 1⟩],
    edges := [(0, 1), (1, 2)],
    resources := [(0, .Buffer 8)],
    next_node_id := 3, next_resource_id := 1 }

/-- Remaining in-degree of `v`: the number of edges into `v` whose source has
not yet been appended to `order`. -/
def remDeg (E : List (Nat × Nat)) (order : List Nat) (v : Nat) : Nat :=
  (E.filter (fun e => decide (e.2 = v) && !decide (e.1 ∈ order))).length

/-- Number of parallel edges from `u` to `v`. -/
def cntEdge (E : List (Nat × Nat)) (u v : Nat) : Nat :=
  (E.filter (fun e => decide (e.1 = u) && decide (e.2 = v))).length

/-- Invariant of the scheduler's main loop, relating the in-degree array, the
ready stack and the emitted order. -/
structure TopoInv (n : Nat) (E : List (Nat × Nat)) (inDeg stack order : List Nat) : Prop where
  len_eq : inDeg.length = n
  stack_lt : ∀ v ∈ stack, v < n
  order_lt : ∀ v ∈ order, v < n
  nodup : (order ++ stack).Nodup
  deg : ∀ v, v < n → inDeg.getD v 0 = remDeg E order v
  zero_iff : ∀ v, v < n → v ∉ order → (inDeg.getD v 0 = 0 ↔ v ∈ stack)
  edge_ord : ∀ e ∈ E, e.2 ∈ order → e.1 ∈ order ∧ posIn order e.1 < posIn order e.2

/-- What holds of the order list when the loop terminates. -/
structure TopoFinal (n : Nat) (E : List (Nat × Nat)) (R : List Nat) : Prop where
  nodup : R.Nodup
  lt : ∀ v ∈ R, v < n
  edge_ord : ∀ e ∈ E, e.2 ∈ R → e.1 ∈ R ∧ posIn R e.1 < posIn R e.2
  stuck : ∀ v, v < n → v ∉ R → ∃ e ∈ E, e.2 = v ∧ e.1 ∉ R

/-- The descending vertex list `[seq (start+len-1), ..., seq start]`, used to
extract a cycle from an infinite predecessor sequence. -/
def chainList (seq : Nat → Nat) (start : Nat) : Nat → List Nat
  | 0 => []
  | len + 1 => seq (start + len) :: chainList seq start len

/-! ## Basic lemmas about the hazard-state operations -/

theorem mem_insertWritten (w : List Nat) (rid r : Nat) :
    r ∈ insertWritten w rid ↔ r ∈ w ∨ r = rid := by
  unfold insertWritten
  split
  · constructor
    · exact fun h => Or.inl h
    · rintro (h | rfl)
      · exact h
      · assumption
  · simp [List.mem_cons, or_comm]

theorem updStep_written (g : RenderGraph) (st : HazardState) (u : UsageEntry) :
    (updStep g st u).written =
      if u.2.1.is_write then insertWritten st.written u.1 else st.written := by
  unfold updStep
  split
  · rfl
  · split <;> rfl

theorem getLayout_setLayout_self (m : List (Nat × ImageLayout)) (rid : Nat) (l : ImageLayout) :
    getLayout (setLayout m rid l) rid = l := by
  simp [getLayout, setLayout, List.lookup]

theorem mem_written_foldl (g : RenderGraph) (l : List UsageEntry) (st : HazardState) (r : Nat) :
    r ∈ (l.foldl (updStep g) st).written ↔
      r ∈ st.written ∨ ∃ u ∈ l, u.1 = r ∧ u.2.1.is_write = true := by
  induction l generalizing st with
  | nil => simp
  | cons u l ih =>
    rw [List.foldl_cons, ih]
    have hw := updStep_written g st u
    by_cases h : u.2.1.is_write = true
    · rw [hw, if_pos h, mem_insertWritten]
      constructor
      · rintro ((hm | rfl) | hl)
        · exact Or.inl hm
        · exact Or.inr ⟨u, List.mem_cons_self .., rfl, h⟩
        · obtain ⟨u', hu', h1, h2⟩ := hl
          exact Or.inr ⟨u', List.mem_cons_of_mem _ hu', h1, h2⟩
      · rintro (hm | ⟨u', hu', h1, h2⟩)
        · exact Or.inl (Or.inl hm)
        · rcases List.mem_cons.mp hu' with rfl | hu'
          · exact Or.inl (Or.inr h1.symm)
          · exact Or.inr ⟨u', hu', h1, h2⟩
    · rw [hw, if_neg h]
      constructor
      · rintro (hm | ⟨u', hu', h1, h2⟩)
        · exact Or.inl hm
        · exact Or.inr ⟨u', List.mem_cons_of_mem _ hu', h1, h2⟩
      · rintro (hm | ⟨u', hu', h1, h2⟩)
        · exact Or.inl hm
        · rcases List.mem_cons.mp hu' with rfl | hu'
          · exact absurd h2 h
          · exact Or.inr ⟨u', hu', h1, h2⟩

theorem getLayout_setLayout_ne (m : List (Nat × ImageLayout)) (rid r : Nat) (l : ImageLayout)
    (h : r ≠ rid) : getLayout (setLayout m rid l) r = getLayout m r := by
  simp [getLayout, setLayout, List.lookup]
  rw [beq_eq_false_iff_ne.mpr h]

theorem updStep_texLayout_write (g : RenderGraph) (st : HazardState) (rid : Nat)
    (ru : ResourceUsage) (hint : TextureBarrierHint)
    (hres : g.lookupRes rid = some .Texture) (hw : ru.is_write = true) :
    (updStep g st (rid, ru, some hint)).texLayout =
      setLayout st.texLayout rid (hint.after_pass_layout.getD hint.need_layout) := by
  unfold updStep
  rw [if_pos hw]
  simp only [hres]

theorem updStep_texLayout_read (g : RenderGraph) (st : HazardState) (rid : Nat)
    (hint : TextureBarrierHint) (hres : g.lookupRes rid = some .Texture) :
    (updStep g st (rid, .Read, some hint)).texLayout =
      setLayout st.texLayout rid hint.need_layout := by
  unfold updStep
  rw [if_neg (by simp [ResourceUsage.is_write])]
  simp only [hres]

theorem updStep_layout_ne (g : RenderGraph) (st : HazardState) (u : UsageEntry) (r : Nat)
    (h : u.1 ≠ r) : getLayout (updStep g st u).texLayout r = getLayout st.texLayout r := by
  unfold updStep
  by_cases hw : u.2.1.is_write = true
  · rw [if_pos hw]
    cases hres : g.lookupRes u.1 with
    | none =>
      cases ho : u.2.2 with
      | none => rfl
      | some hint => rfl
    | some handle =>
      cases handle with
      | Buffer s =>
        cases ho : u.2.2 with
        | none => rfl
        | some hint => rfl
      | Texture =>
        cases ho : u.2.2 with
        | none => rfl
        | some hint =>
          show getLayout (setLayout st.texLayout u.1 _) r = _
          exact getLayout_setLayout_ne st.texLayout u.1 r _ (fun hc => h hc.symm)
  · rw [if_neg hw]
    cases hres : g.lookupRes u.1 with
    | none =>
      cases ho : u.2.2 with
      | none => rfl
      | some hint => rfl
    | some handle =>
      cases handle with
      | Buffer s =>
        cases ho : u.2.2 with
        | none => rfl
        | some hint => rfl
      | Texture =>
        cases ho : u.2.2 with
        | none => rfl
        | some hint =>
          show getLayout (setLayout st.texLayout u.1 hint.need_layout) r = _
          exact getLayout_setLayout_ne st.texLayout u.1 r _ (fun hc => h hc.symm)

theorem foldl_layout_ne (g : RenderGraph) (r : Nat) :
    ∀ (l : List UsageEntry) (st : HazardState), (∀ u ∈ l, u.1 ≠ r) →
      getLayout ((l.foldl (updStep g) st)).texLayout r = getLayout st.texLayout r := by
  intro l
  induction l with
  | nil =>
    intro st _
    rfl
  | cons u l ih =>
    intro st hall
    rw [List.foldl_cons, ih _ (fun u' hu' => hall u' (List.mem_cons_of_mem _ hu')),
      updStep_layout_ne g st u r (hall u (List.mem_cons_self ..))]

theorem usage_split_unique (l : List UsageEntry) (r : Nat) (e : UsageEntry)
    (hcount : l.countP (fun u => u.1 == r) = 1) (hmem : e ∈ l) (her : e.1 = r) :
    ∃ l1 l2, l = l1 ++ e :: l2 ∧ (∀ u ∈ l1, u.1 ≠ r) ∧ (∀ u ∈ l2, u.1 ≠ r) := by
  obtain ⟨l1, l2, rfl⟩ := List.append_of_mem hmem
  rw [List.countP_append, List.countP_cons_of_pos _ _ (by simp [her])] at hcount
  have h1 : l1.countP (fun u => u.1 == r) = 0 := by omega
  have h2 : l2.countP (fun u => u.1 == r) = 0 := by omega
  refine ⟨l1, l2, rfl, ?_, ?_⟩
  · intro u hu hc
    have := List.countP_eq_zero.mp h1 u hu
    simp [hc] at this
  · intro u hu hc
    have := List.countP_eq_zero.mp h2 u hu
    simp [hc] at this

theorem execPass_written (g : RenderGraph) (st : HazardState) (i r : Nat) :
    r ∈ (execPass g st i).2.written ↔
      r ∈ st.written ∨ ∃ u ∈ g.usageOf i, u.1 = r ∧ u.2.1.is_write = true := by
  unfold execPass
  exact mem_written_foldl g (g.usageOf i) st r

/-! ## Lemmas about the topological loop on edge-free graphs -/

theorem getD_replicate_nat (n i : Nat) : (List.replicate n (0 : Nat)).getD i 0 = 0 := by
  induction n generalizing i with
  | zero => simp [List.getD]
  | succ n ih =>
    cases i with
    | zero => simp [List.replicate]
    | succ i =>
      show (List.replicate n (0 : Nat)).getD i 0 = 0
      exact ih i

theorem getD_replicate_nil (n u : Nat) :
    (List.replicate n ([] : List Nat)).getD u [] = [] := by
  induction n generalizing u with
  | zero => simp [List.getD]
  | succ n ih =>
    cases u with
    | zero => simp [List.replicate]
    | succ u =>
      show (List.replicate n ([] : List Nat)).getD u [] = []
      exact ih u

theorem topoLoop_no_edges (outE : List (List Nat)) (hout : ∀ u, outE.getD u [] = []) :
    ∀ (stack : List Nat) (fuel : Nat) (inDeg order : List Nat),
      stack.length ≤ fuel → topoLoop outE fuel inDeg stack order = order ++ stack := by
  intro stack
  induction stack with
  | nil =>
    intro fuel inDeg order _
    cases fuel <;> simp [topoLoop]
  | cons u rest ih =>
    intro fuel inDeg order hlen
    cases fuel with
    | zero => simp at hlen
    | succ f =>
      have hstep : topoLoop outE (f + 1) inDeg (u :: rest) order =
          topoLoop outE f (processSuccs inDeg rest (outE.getD u [])).1
            (processSuccs inDeg rest (outE.getD u [])).2 (order ++ [u]) := rfl
      rw [hstep, hout u]
      show topoLoop outE f inDeg rest (order ++ [u]) = order ++ u :: rest
      rw [ih f inDeg (order ++ [u]) (by simpa using Nat.le_of_succ_le_succ hlen)]
      simp

theorem topoOrderRun_no_edges (n : Nat) :
    topoOrderRun n [] = (List.range n).reverse := by
  unfold topoOrderRun
  have hbd : buildDegrees n [] = (List.replicate n 0, List.replicate n []) := rfl
  rw [hbd]
  have hseeds : (List.range n).filter
      (fun i => decide ((List.replicate n (0 : Nat)).getD i 0 = 0)) = List.range n := by
    apply List.filter_eq_self.mpr
    intro a _
    simp [getD_replicate_nat]
  simp only [hseeds]
  rw [topoLoop_no_edges _ (fun u => getD_replicate_nil _ u) _ _ _ _ (by simp)]
  simp

theorem topological_order_no_edges (g : RenderGraph) (h : g.edges = []) :
    g.topological_order = .ok (List.range g.nodes.length).reverse := by
  unfold RenderGraph.topological_order
  rw [h, topoOrderRun_no_edges]
  simp

/-! ## Lemmas: graph fields irrelevant to scheduling/execution -/

theorem execLoop_add_edge (g : RenderGraph) (a b : Nat) :
    ∀ (l : List Nat) (st : HazardState), execLoop (g.add_edge a b) st l = execLoop g st l := by
  intro l
  induction l with
  | nil => intro st; rfl
  | cons i rest ih =>
    intro st
    show (execPass (g.add_edge a b) st i).1 ++
        execLoop (g.add_edge a b) (execPass (g.add_edge a b) st i).2 rest = _
    have h : execPass (g.add_edge a b) st i = execPass g st i := rfl
    rw [h, ih]
    rfl

theorem buildDegrees_append_invalid (n : Nat) (es : List (Nat × Nat)) (a b : Nat)
    (h : ¬(a < n ∧ b < n)) :
    buildDegrees n (es ++ [(a, b)]) = buildDegrees n es := by
  unfold buildDegrees
  rw [List.foldl_append]
  show degStep n (es.foldl (degStep n) _) (a, b) = _
  unfold degStep
  exact if_neg h

theorem execLoop_counters (n e r : _) (a b a' b' : Nat) :
    ∀ (l : List Nat) (st : HazardState),
      execLoop ⟨n, e, r, a, b⟩ st l = execLoop ⟨n, e, r, a', b'⟩ st l := by
  intro l
  induction l with
  | nil => intro st; rfl
  | cons i rest ih =>
    intro st
    show (execPass ⟨n, e, r, a, b⟩ st i).1 ++ _ = _
    have h : execPass (⟨n, e, r, a, b⟩ : RenderGraph) st i = execPass ⟨n, e, r, a', b'⟩ st i := rfl
    rw [h]
    show _ ++ execLoop ⟨n, e, r, a, b⟩ (execPass ⟨n, e, r, a', b'⟩ st i).2 rest = _
    rw [ih]
    rfl

/-! ## Lemmas about barrier collection and placement -/

theorem usage_rw_total (ru : ResourceUsage) : (!ru.is_read && !ru.is_write) = false := by
  cases ru <;> rfl

theorem bufBarrierNeeded_of_entry (g : RenderGraph) (w : List Nat) (R size : Nat)
    (hw : R ∈ w) (hbuf : g.lookupRes R = some (.Buffer size)) (u : UsageEntry)
    (h : u.1 = R) : bufBarrierNeeded g w u = some R := by
  obtain ⟨rid, ru, ho⟩ := u
  simp only at h
  subst h
  simp [bufBarrierNeeded, usage_rw_total, hw, hbuf]

theorem bufBarrierNeeded_some (g : RenderGraph) (w : List Nat) (u : UsageEntry) (x : Nat)
    (h : bufBarrierNeeded g w u = some x) : x = u.1 := by
  unfold bufBarrierNeeded at h
  split at h
  · exact absurd h (by simp)
  · split at h
    · split at h
      · injection h with h
        exact h.symm
      · exact absurd h (by simp)
    · exact absurd h (by simp)

theorem bufBarrierNeeded_not_written (g : RenderGraph) (w : List Nat) (R : Nat)
    (hw : R ∉ w) (u : UsageEntry) : bufBarrierNeeded g w u ≠ some R := by
  intro h
  have hx := bufBarrierNeeded_some g w u R h
  subst hx
  unfold bufBarrierNeeded at h
  by_cases h1 : (!u.2.1.is_read && !u.2.1.is_write) = true
  · rw [if_pos h1] at h
    exact absurd h (by simp)
  · rw [if_neg h1] at h
    by_cases h2 : u.1 ∈ w
    · exact hw h2
    · rw [if_neg h2] at h
      exact absurd h (by simp)

theorem texBarrierNeeded_some (g : RenderGraph) (w : List Nat) (tl : List (Nat × ImageLayout))
    (u : UsageEntry) (t : Nat × ImageLayout × ImageLayout)
    (h : texBarrierNeeded g w tl u = some t) : t.1 = u.1 := by
  unfold texBarrierNeeded at h
  split at h
  · exact absurd h (by simp)
  · split at h
    · split at h
      · split at h
        · split at h
          · injection h with h
            subst h
            rfl
          · exact absurd h (by simp)
        · exact absurd h (by simp)
      · exact absurd h (by simp)
    · exact absurd h (by simp)

theorem texBarrierNeeded_of_entry_key (g : RenderGraph) (w : List Nat)
    (tl : List (Nat × ImageLayout)) (R : Nat) (ru : ResourceUsage)
    (ho : Option TextureBarrierHint) (hw : R ∈ w) :
    texBarrierNeeded g w tl (R, ru, ho) =
      match g.lookupRes R with
      | some ResourceHandle.Texture =>
        match ho with
        | some hint =>
          if getLayout tl R ≠ hint.need_layout then
            some (R, getLayout tl R, hint.need_layout)
          else none
        | none => none
      | _ => none := by
  unfold texBarrierNeeded
  rw [if_neg (by simp [usage_rw_total])]
  rw [if_pos hw]

theorem texBarrierNeeded_of_entry (g : RenderGraph) (w : List Nat)
    (tl : List (Nat × ImageLayout)) (R : Nat) (ru : ResourceUsage) (hint : TextureBarrierHint)
    (hw : R ∈ w) (htex : g.lookupRes R = some .Texture)
    (hne : hint.need_layout ≠ getLayout tl R) :
    texBarrierNeeded g w tl (R, ru, some hint) = some (R, getLayout tl R, hint.need_layout) := by
  simp [texBarrierNeeded, usage_rw_total, hw, htex, Ne.symm hne]

theorem texBarrierNeeded_of_entry_eq (g : RenderGraph) (w : List Nat)
    (tl : List (Nat × ImageLayout)) (R : Nat) (ru : ResourceUsage) (hint : TextureBarrierHint)
    (heq : hint.need_layout = getLayout tl R) :
    texBarrierNeeded g w tl (R, ru, some hint) = none := by
  by_cases hw : R ∈ w
  · rw [texBarrierNeeded_of_entry_key g w tl R ru (some hint) hw]
    cases hr : g.lookupRes R with
    | none => rfl
    | some handle =>
      cases handle with
      | Buffer s => rfl
      | Texture => simp [heq]
  · unfold texBarrierNeeded
    rw [if_neg (by simp [usage_rw_total])]
    rw [if_neg hw]

theorem texBarrierNeeded_of_entry_none (g : RenderGraph) (w : List Nat)
    (tl : List (Nat × ImageLayout)) (R : Nat) (ru : ResourceUsage) :
    texBarrierNeeded g w tl (R, ru, none) = none := by
  by_cases hw : R ∈ w
  · rw [texBarrierNeeded_of_entry_key g w tl R ru none hw]
    cases hr : g.lookupRes R with
    | none => rfl
    | some handle =>
      cases handle with
      | Buffer s => rfl
      | Texture => rfl
  · unfold texBarrierNeeded
    rw [if_neg (by simp [usage_rw_total])]
    rw [if_neg hw]

theorem recordBufBarriers_cons_buf (g : RenderGraph) (rid s : Nat) (l : List Nat)
    (h : g.lookupRes rid = some (.Buffer s)) :
    recordBufBarriers g (rid :: l) = (rid, 0, s) :: recordBufBarriers g l := by
  unfold recordBufBarriers
  rw [List.filterMap_cons]
  simp [h]

theorem recordBufBarriers_cons_other (g : RenderGraph) (rid : Nat) (l : List Nat)
    (h : ∀ s, ¬g.lookupRes rid = some (.Buffer s)) :
    recordBufBarriers g (rid :: l) = recordBufBarriers g l := by
  unfold recordBufBarriers
  rw [List.filterMap_cons]
  cases hr : g.lookupRes rid with
  | none => simp
  | some handle =>
    cases handle with
    | Buffer s => exact absurd hr (h s)
    | Texture => simp

theorem recordTexBarriers_cons_tex (g : RenderGraph) (t : Nat × ImageLayout × ImageLayout)
    (l : List (Nat × ImageLayout × ImageLayout)) (h : g.lookupRes t.1 = some .Texture) :
    recordTexBarriers g (t :: l) = t :: recordTexBarriers g l := by
  unfold recordTexBarriers
  rw [List.filterMap_cons]
  simp [h]

theorem recordTexBarriers_cons_other (g : RenderGraph) (t : Nat × ImageLayout × ImageLayout)
    (l : List (Nat × ImageLayout × ImageLayout)) (h : ¬g.lookupRes t.1 = some .Texture) :
    recordTexBarriers g (t :: l) = recordTexBarriers g l := by
  unfold recordTexBarriers
  rw [List.filterMap_cons]
  cases hr : g.lookupRes t.1 with
  | none => simp
  | some handle =>
    cases handle with
    | Buffer s => simp
    | Texture => exact absurd hr h

theorem count_buf_entries (g : RenderGraph) (w : List Nat) (R size : Nat)
    (hbuf : g.lookupRes R = some (.Buffer size)) (hw : R ∈ w) :
    ∀ usage : List UsageEntry,
      (recordBufBarriers g (usage.filterMap (bufBarrierNeeded g w))).countP
        (fun t => t.1 == R) = usage.countP (fun u => u.1 == R) := by
  intro usage
  induction usage with
  | nil => rfl
  | cons u rest ih =>
    by_cases h : u.1 = R
    · rw [List.filterMap_cons, bufBarrierNeeded_of_entry g w R size hw hbuf u h,
        recordBufBarriers_cons_buf g R size _ hbuf,
        List.countP_cons_of_pos _ _ (by simp), List.countP_cons_of_pos _ _ (by simp [h]), ih]
    · rw [List.filterMap_cons]
      cases hb : bufBarrierNeeded g w u with
      | none =>
        rw [List.countP_cons_of_neg _ _ (by simp [h])]
        exact ih
      | some x =>
        have hx := bufBarrierNeeded_some g w u x hb
        subst hx
        rw [List.countP_cons_of_neg _ _ (by simp [h])]
        cases hr : g.lookupRes u.1 with
        | none =>
          rw [recordBufBarriers_cons_other g _ _ (by simp [hr])]
          exact ih
        | some handle =>
          cases handle with
          | Buffer s =>
            rw [recordBufBarriers_cons_buf g _ s _ hr,
              List.countP_cons_of_neg _ _ (by simp [h])]
            exact ih
          | Texture =>
            rw [recordBufBarriers_cons_other g _ _ (by simp [hr])]
            exact ih

theorem mem_recordBufBarriers (g : RenderGraph) (l : List Nat) (R size : Nat)
    (hbuf : g.lookupRes R = some (.Buffer size)) (hmem : R ∈ l) :
    (R, 0, size) ∈ recordBufBarriers g l := by
  unfold recordBufBarriers
  apply List.mem_filterMap.mpr
  exact ⟨R, hmem, by rw [hbuf]⟩

theorem recordBufBarriers_entry (g : RenderGraph) (l : List Nat) (R off sz : Nat)
    (h : (R, off, sz) ∈ recordBufBarriers g l) : R ∈ l := by
  obtain ⟨rid, hrid, hf⟩ := List.mem_filterMap.mp h
  cases hr : g.lookupRes rid with
  | none => simp [hr] at hf
  | some handle =>
    cases handle with
    | Buffer s =>
      simp only [hr] at hf
      obtain ⟨rfl, -, -⟩ : rid = R ∧ 0 = off ∧ s = sz := by simpa using hf
      exact hrid
    | Texture => simp [hr] at hf

theorem recordTexBarriers_entry (g : RenderGraph) (l : List (Nat × ImageLayout × ImageLayout))
    (t : Nat × ImageLayout × ImageLayout) (h : t ∈ recordTexBarriers g l) : t ∈ l := by
  obtain ⟨s, hs, hf⟩ := List.mem_filterMap.mp h
  cases hr : g.lookupRes s.1 with
  | none => simp [hr] at hf
  | some handle =>
    cases handle with
    | Buffer sz => simp [hr] at hf
    | Texture =>
      simp only [hr] at hf
      obtain rfl : s = t := by simpa using hf
      exact hs

theorem mem_recordTexBarriers (g : RenderGraph) (l : List (Nat × ImageLayout × ImageLayout))
    (t : Nat × ImageLayout × ImageLayout) (htex : g.lookupRes t.1 = some .Texture)
    (hmem : t ∈ l) : t ∈ recordTexBarriers g l := by
  unfold recordTexBarriers
  apply List.mem_filterMap.mpr
  exact ⟨t, hmem, by rw [htex]⟩

theorem count_tex_entries (g : RenderGraph) (w : List Nat) (tl : List (Nat × ImageLayout))
    (R : Nat) (old need : ImageLayout) (htex : g.lookupRes R = some .Texture) :
    ∀ usage : List UsageEntry,
      (∀ u ∈ usage, u.1 = R → texBarrierNeeded g w tl u = some (R, old, need)) →
      (recordTexBarriers g (usage.filterMap (texBarrierNeeded g w tl))).countP
        (fun t => t.1 == R) = usage.countP (fun u => u.1 == R) := by
  intro usage
  induction usage with
  | nil => intro _; rfl
  | cons u rest ih =>
    intro hall
    have ihr := ih (fun u' hu' => hall u' (List.mem_cons_of_mem _ hu'))
    by_cases h : u.1 = R
    · rw [List.filterMap_cons, hall u (List.mem_cons_self ..) h,
        recordTexBarriers_cons_tex g (R, old, need) _ htex,
        List.countP_cons_of_pos _ _ (by simp), List.countP_cons_of_pos _ _ (by simp [h]), ihr]
    · rw [List.filterMap_cons]
      cases hb : texBarrierNeeded g w tl u with
      | none =>
        rw [List.countP_cons_of_neg _ _ (by simp [h])]
        exact ihr
      | some t =>
        have hx := texBarrierNeeded_some g w tl u t hb
        rw [List.countP_cons_of_neg _ _ (by simp [h])]
        cases hr : g.lookupRes t.1 with
        | none =>
          rw [recordTexBarriers_cons_other g t _ (by simp [hr])]
          exact ihr
        | some handle =>
          cases handle with
          | Buffer s =>
            rw [recordTexBarriers_cons_other g t _ (by simp [hr])]
            exact ihr
          | Texture =>
            rw [recordTexBarriers_cons_tex g t _ hr,
              List.countP_cons_of_neg _ _ (by simp [hx, h])]
            exact ihr

theorem countP_eq_one_unique {α : Type} (p : α → Bool) :
    ∀ (l : List α) (a b : α), l.countP p = 1 → a ∈ l → p a → b ∈ l → p b → a = b := by
  intro l
  induction l with
  | nil => intro a b _ ha; exact absurd ha (by simp)
  | cons x xs ih =>
    intro a b hc ha hpa hb hpb
    by_cases hx : p x
    · rw [List.countP_cons_of_pos _ _ hx] at hc
      have hzero : xs.countP p = 0 := by omega
      have hnone : ∀ c ∈ xs, ¬p c = true := List.countP_eq_zero.mp hzero
      rcases List.mem_cons.mp ha with rfl | ha'
      · rcases List.mem_cons.mp hb with rfl | hb'
        · rfl
        · exact absurd hpb (hnone b hb')
      · exact absurd hpa (hnone a ha')
    · rw [List.countP_cons_of_neg _ _ hx] at hc
      rcases List.mem_cons.mp ha with rfl | ha'
      · exact absurd hpa hx
      · rcases List.mem_cons.mp hb with rfl | hb'
        · exact absurd hpb hx
        · exact ih a b hc ha' hpa hb' hpb

theorem passCmds_no_barrier (g : RenderGraph) (i : Nat) :
    ∀ c ∈ g.passCmds i, ∀ bufs texs, c ≠ CmdBuf.barrier bufs texs := by
  intro c hc bufs texs
  obtain ⟨k, -, rfl⟩ := List.mem_map.mp hc
  intro h
  exact absurd h (by simp)

theorem execPass_fst (g : RenderGraph) (st : HazardState) (i : Nat) :
    (execPass g st i).1 =
      (if ¬(g.usageOf i).filterMap (bufBarrierNeeded g st.written) = [] ∨
          ¬(g.usageOf i).filterMap (texBarrierNeeded g st.written st.texLayout) = [] then
        [CmdBuf.barrier
          (recordBufBarriers g ((g.usageOf i).filterMap (bufBarrierNeeded g st.written)))
          (recordTexBarriers g
            ((g.usageOf i).filterMap (texBarrierNeeded g st.written st.texLayout)))]
      else []) ++ g.passCmds i := rfl

theorem execLoop_append (g : RenderGraph) :
    ∀ (l1 l2 : List Nat) (st : HazardState),
      execLoop g st (l1 ++ l2) =
        execLoop g st l1 ++ execLoop g (execStateAfter g st l1) l2 := by
  intro l1
  induction l1 with
  | nil => intro l2 st; rfl
  | cons i rest ih =>
    intro l2 st
    show (execPass g st i).1 ++ execLoop g (execPass g st i).2 (rest ++ l2) = _
    rw [ih]
    simp [execLoop, execStateAfter]

theorem mem_written_after (g : RenderGraph) :
    ∀ (l : List Nat) (st : HazardState) (r : Nat),
      r ∈ (execStateAfter g st l).written ↔
        r ∈ st.written ∨ ∃ i ∈ l, g.writesRes i r := by
  intro l
  induction l with
  | nil => intro st r; simp [execStateAfter]
  | cons i rest ih =>
    intro st r
    show r ∈ (execStateAfter g (execPass g st i).2 rest).written ↔ _
    rw [ih]
    rw [execPass_written]
    constructor
    · rintro ((hm | hw) | ⟨j, hj, hwj⟩)
      · exact Or.inl hm
      · exact Or.inr ⟨i, List.mem_cons_self .., hw⟩
      · exact Or.inr ⟨j, List.mem_cons_of_mem _ hj, hwj⟩
    · rintro (hm | ⟨j, hj, hwj⟩)
      · exact Or.inl (Or.inl hm)
      · rcases List.mem_cons.mp hj with rfl | hj'
        · exact Or.inl (Or.inr hwj)
        · exact Or.inr ⟨j, hj', hwj⟩

theorem execPass_barrier_eq (g : RenderGraph) (st : HazardState) (b : Nat) :
    ∀ c ∈ (execPass g st b).1, ∀ bufs texs, c = CmdBuf.barrier bufs texs →
      bufs = recordBufBarriers g ((g.usageOf b).filterMap (bufBarrierNeeded g st.written)) ∧
      texs = recordTexBarriers g
        ((g.usageOf b).filterMap (texBarrierNeeded g st.written st.texLayout)) := by
  intro c hc bufs texs hceq
  rw [execPass_fst] at hc
  rcases List.mem_append.mp hc with hin | hin
  · split at hin
    · have hcb : c = CmdBuf.barrier
          (recordBufBarriers g ((g.usageOf b).filterMap (bufBarrierNeeded g st.written)))
          (recordTexBarriers g
            ((g.usageOf b).filterMap (texBarrierNeeded g st.written st.texLayout))) := by
        simpa using hin
      rw [hceq] at hcb
      injection hcb with h1 h2
      exact ⟨h1, h2⟩
    · exact absurd hin (by simp)
  · exact absurd hceq (passCmds_no_barrier g b c hin bufs texs)

theorem execute_split (g : RenderGraph) (pre : List Nat) (b : Nat) (suf : List Nat)
    (h : g.topological_order = .ok (pre ++ b :: suf)) :
    g.execute = .ok (execLoop g initState pre ++
      (execPass g (execStateAfter g initState pre) b).1 ++
      execLoop g (execPass g (execStateAfter g initState pre) b).2 suf) := by
  unfold RenderGraph.execute
  rw [h]
  show Except.ok (execLoop g initState (pre ++ b :: suf)) = _
  rw [execLoop_append]
  show Except.ok (execLoop g initState pre ++
    ((execPass g (execStateAfter g initState pre) b).1 ++
      execLoop g (execPass g (execStateAfter g initState pre) b).2 suf)) = _
  rw [List.append_assoc]

theorem buf_hazard_emits (g : RenderGraph) (st : HazardState) (b R size : Nat)
    (hbuf : g.lookupRes R = some (.Buffer size)) (hw : R ∈ st.written)
    (huse : ∃ u ∈ g.usageOf b, u.1 = R) :
    ∃ bufs texs, (execPass g st b).1 = CmdBuf.barrier bufs texs :: g.passCmds b ∧
      (R, 0, size) ∈ bufs ∧
      bufs = recordBufBarriers g ((g.usageOf b).filterMap (bufBarrierNeeded g st.written)) := by
  obtain ⟨u, hu, huR⟩ := huse
  have hneed : R ∈ (g.usageOf b).filterMap (bufBarrierNeeded g st.written) :=
    List.mem_filterMap.mpr ⟨u, hu, bufBarrierNeeded_of_entry g st.written R size hw hbuf u huR⟩
  have hmem : (R, 0, size) ∈
      recordBufBarriers g ((g.usageOf b).filterMap (bufBarrierNeeded g st.written)) :=
    mem_recordBufBarriers g _ R size hbuf hneed
  refine ⟨recordBufBarriers g ((g.usageOf b).filterMap (bufBarrierNeeded g st.written)),
    recordTexBarriers g ((g.usageOf b).filterMap (texBarrierNeeded g st.written st.texLayout)),
    ?_, hmem, rfl⟩
  rw [execPass_fst, if_pos (Or.inl (List.ne_nil_of_mem hneed))]
  rfl

/-! ## Claim theorems: C1, C2, C9 -/

/-- Claim C1: if some earlier-scheduled pass wrote buffer R and a later pass B
declares a (single) usage of R, the executor emits exactly one buffer barrier
for R, covering offset 0 to R's full size, inside the standalone barrier
command buffer placed immediately before B's own command buffers; and if no
earlier pass wrote R, no buffer barrier for R appears in B's barrier command
buffer. -/
theorem claim_C1 :
    ∀ (g : RenderGraph) (pre : List Nat) (b : Nat) (suf : List Nat) (R size : Nat),
      g.topological_order = .ok (pre ++ b :: suf) →
      g.lookupRes R = some (.Buffer size) →
      (((∃ i ∈ pre, g.writesRes i R) ∧
          (g.usageOf b).countP (fun u => u.1 == R) = 1) →
        ∃ bufs texs,
          (execPass g (execStateAfter g initState pre) b).1 =
            CmdBuf.barrier bufs texs :: g.passCmds b ∧
          bufs.countP (fun t => t.1 == R) = 1 ∧
          (R, 0, size) ∈ bufs ∧
          g.execute = .ok (execLoop g initState pre ++
            (CmdBuf.barrier bufs texs :: g.passCmds b) ++
            execLoop g (execPass g (execStateAfter g initState pre) b).2 suf)) ∧
      ((¬∃ i ∈ pre, g.writesRes i R) →
        ∀ c ∈ (execPass g (execStateAfter g initState pre) b).1,
          ∀ bufs texs, c = CmdBuf.barrier bufs texs →
            ∀ off sz, (R, off, sz) ∉ bufs) := by
  intro g pre b suf R size htopo hbuf
  constructor
  · rintro ⟨⟨i, hi, hwr⟩, hcount⟩
    have hw : R ∈ (execStateAfter g initState pre).written :=
      (mem_written_after g pre initState R).mpr (Or.inr ⟨i, hi, hwr⟩)
    have huse : ∃ u ∈ g.usageOf b, u.1 = R := by
      have hpos : 0 < (g.usageOf b).countP (fun u => u.1 == R) := by omega
      obtain ⟨u, hu, hp⟩ := List.countP_pos_iff.mp hpos
      exact ⟨u, hu, by simpa using hp⟩
    obtain ⟨bufs, texs, hshape, hmem, hbufs⟩ :=
      buf_hazard_emits g (execStateAfter g initState pre) b R size hbuf hw huse
    refine ⟨bufs, texs, hshape, ?_, hmem, ?_⟩
    · rw [hbufs, count_buf_entries g _ R size hbuf hw (g.usageOf b), hcount]
    · rw [execute_split g pre b suf htopo, hshape]
  · intro hnw c hc bufs texs hceq off sz hmem
    have hnotw : R ∉ (execStateAfter g initState pre).written := by
      intro hR
      rcases (mem_written_after g pre initState R).mp hR with hinit | hex
      · exact absurd hinit (by simp [initState])
      · exact hnw hex
    obtain ⟨hb, -⟩ := execPass_barrier_eq g (execStateAfter g initState pre) b c hc bufs texs hceq
    rw [hb] at hmem
    have hR := recordBufBarriers_entry g _ R off sz hmem
    obtain ⟨u, -, hfu⟩ := List.mem_filterMap.mp hR
    exact bufBarrierNeeded_not_written g _ R hnotw u hfu

/-- Witness for C1 at Scenario B: pass 0 writes buffer 0 (size 16), pass 1
reads it; the barrier command buffer with the single full-range barrier
(0, 0, 16) immediately precedes pass 1's command buffer. -/
theorem claim_C1_witness :
    ∃ bufs texs,
      (execPass gScenB (execStateAfter gScenB initState [0]) 1).1 =
        CmdBuf.barrier bufs texs :: gScenB.passCmds 1 ∧
      bufs.countP (fun t => t.1 == 0) = 1 ∧
      (0, 0, 16) ∈ bufs ∧
      gScenB.execute = .ok (execLoop gScenB initState [0] ++
        (CmdBuf.barrier bufs texs :: gScenB.passCmds 1) ++
        execLoop gScenB (execPass gScenB (execStateAfter gScenB initState [0]) 1).2 []) :=
  (claim_C1 gScenB [0] 1 [] 0 16 (by rfl) (by rfl)).1
    ⟨⟨0, by decide, (0, .Write, none), by decide, by decide⟩, by decide⟩

/-- Claim C2: for a texture R already in the written set when pass B is
processed (declaring R exactly once), a layout-transition barrier from the
tracked layout to the hint's need_layout is emitted before B exactly when B's
usage carries a hint whose need_layout differs from the tracked layout; with
an equal-layout hint, or with no hint at all, no texture barrier for R is
emitted. -/
theorem claim_C2 :
    ∀ (g : RenderGraph) (st : HazardState) (b R : Nat) (ru : ResourceUsage),
      g.lookupRes R = some .Texture →
      R ∈ st.written →
      (g.usageOf b).countP (fun u => u.1 == R) = 1 →
      ((∀ hint : TextureBarrierHint, (R, ru, some hint) ∈ g.usageOf b →
          hint.need_layout ≠ getLayout st.texLayout R →
        ∃ bufs texs,
          (execPass g st b).1 = CmdBuf.barrier bufs texs :: g.passCmds b ∧
          texs.countP (fun t => t.1 == R) = 1 ∧
          (R, getLayout st.texLayout R, hint.need_layout) ∈ texs) ∧
      (∀ hint : TextureBarrierHint, (R, ru, some hint) ∈ g.usageOf b →
          hint.need_layout = getLayout st.texLayout R →
        ∀ c ∈ (execPass g st b).1, ∀ bufs texs, c = CmdBuf.barrier bufs texs →
          ∀ o nl, (R, o, nl) ∉ texs) ∧
      ((R, ru, none) ∈ g.usageOf b →
        ∀ c ∈ (execPass g st b).1, ∀ bufs texs, c = CmdBuf.barrier bufs texs →
          ∀ o nl, (R, o, nl) ∉ texs)) := by
  intro g st b R ru htex hw hcount
  refine ⟨?_, ?_, ?_⟩
  · intro hint hentry hne
    have hall : ∀ u ∈ g.usageOf b, u.1 = R →
        texBarrierNeeded g st.written st.texLayout u =
          some (R, getLayout st.texLayout R, hint.need_layout) := by
      intro u hu huR
      have hueq : (R, ru, some hint) = u :=
        countP_eq_one_unique _ (g.usageOf b) (R, ru, some hint) u hcount hentry
          (by simp) hu (by simp [huR])
      rw [← hueq]
      exact texBarrierNeeded_of_entry g st.written st.texLayout R ru hint hw htex hne
    have hsome := hall (R, ru, some hint) hentry rfl
    have hneed : (R, getLayout st.texLayout R, hint.need_layout) ∈
        (g.usageOf b).filterMap (texBarrierNeeded g st.written st.texLayout) :=
      List.mem_filterMap.mpr ⟨(R, ru, some hint), hentry, hsome⟩
    have hmem : (R, getLayout st.texLayout R, hint.need_layout) ∈
        recordTexBarriers g
          ((g.usageOf b).filterMap (texBarrierNeeded g st.written st.texLayout)) :=
      mem_recordTexBarriers g _ _ htex hneed
    refine ⟨recordBufBarriers g ((g.usageOf b).filterMap (bufBarrierNeeded g st.written)),
      recordTexBarriers g ((g.usageOf b).filterMap (texBarrierNeeded g st.written st.texLayout)),
      ?_, ?_, hmem⟩
    · rw [execPass_fst, if_pos (Or.inr (List.ne_nil_of_mem hneed))]
      rfl
    · rw [count_tex_entries g st.written st.texLayout R (getLayout st.texLayout R)
        hint.need_layout htex (g.usageOf b) hall, hcount]
  · intro hint hentry heq c hc bufs texs hceq o nl hmem
    obtain ⟨-, ht⟩ := execPass_barrier_eq g st b c hc bufs texs hceq
    rw [ht] at hmem
    have hin := recordTexBarriers_entry g _ _ hmem
    obtain ⟨u, hu, hfu⟩ := List.mem_filterMap.mp hin
    have huR : u.1 = R := by
      have h2 := texBarrierNeeded_some g st.written st.texLayout u (R, o, nl) hfu
      simp at h2
      exact h2.symm
    have hueq : (R, ru, some hint) = u :=
      countP_eq_one_unique _ (g.usageOf b) (R, ru, some hint) u hcount hentry
        (by simp) hu (by simp [huR])
    rw [← hueq, texBarrierNeeded_of_entry_eq g st.written st.texLayout R ru hint heq] at hfu
    exact absurd hfu (by simp)
  · intro hentry c hc bufs texs hceq o nl hmem
    obtain ⟨-, ht⟩ := execPass_barrier_eq g st b c hc bufs texs hceq
    rw [ht] at hmem
    have hin := recordTexBarriers_entry g _ _ hmem
    obtain ⟨u, hu, hfu⟩ := List.mem_filterMap.mp hin
    have huR : u.1 = R := by
      have h2 := texBarrierNeeded_some g st.written st.texLayout u (R, o, nl) hfu
      simp at h2
      exact h2.symm
    have hueq : (R, ru, none) = u :=
      countP_eq_one_unique _ (g.usageOf b) (R, ru, none) u hcount hentry
        (by simp) hu (by simp [huR])
    rw [← hueq, texBarrierNeeded_of_entry_none g st.written st.texLayout R ru] at hfu
    exact absurd hfu (by simp)

/-- Witness for C2: with texture 0 written and tracked in ColorAttachment,
pass 1 of Scenario E (hint need_layout ShaderReadOnly) receives a texture
barrier from ColorAttachment to ShaderReadOnly. -/
theorem claim_C2_witness :
    ∃ bufs texs,
      (execPass gScenE ⟨[0], [(0, .ColorAttachment)]⟩ 1).1 =
        CmdBuf.barrier bufs texs :: gScenE.passCmds 1 ∧
      texs.countP (fun t => t.1 == 0) = 1 ∧
      (0, getLayout [(0, .ColorAttachment)] 0,
        TextureBarrierHint.need_layout ⟨.ShaderReadOnly, none⟩) ∈ texs :=
  (claim_C2 gScenE ⟨[0], [(0, .ColorAttachment)]⟩ 1 0 .Read (by decide) (by decide)
      (by decide)).1 ⟨.ShaderReadOnly, none⟩ (by decide) (by decide)

/-- Claim C9: the written set only grows along the walk, and once an earlier
pass wrote buffer R, every later pass declaring any usage of R gets its own
barrier command buffer containing a full-range buffer barrier for R,
immediately preceding that pass's command buffers. -/
theorem claim_C9 :
    (∀ (g : RenderGraph) (l : List Nat) (st : HazardState) (r : Nat),
      r ∈ st.written → r ∈ (execStateAfter g st l).written) ∧
    (∀ (g : RenderGraph) (pre : List Nat) (b : Nat) (suf : List Nat) (R size : Nat),
      g.topological_order = .ok (pre ++ b :: suf) →
      g.lookupRes R = some (.Buffer size) →
      (∃ i ∈ pre, g.writesRes i R) →
      (∃ u ∈ g.usageOf b, u.1 = R) →
      ∃ bufs texs,
        (execPass g (execStateAfter g initState pre) b).1 =
          CmdBuf.barrier bufs texs :: g.passCmds b ∧
        (R, 0, size) ∈ bufs ∧
        g.execute = .ok (execLoop g initState pre ++
          (CmdBuf.barrier bufs texs :: g.passCmds b) ++
          execLoop g (execPass g (execStateAfter g initState pre) b).2 suf)) := by
  constructor
  · intro g l st r hr
    exact (mem_written_after g l st r).mpr (Or.inl hr)
  · intro g pre b suf R size htopo hbuf hwr huse
    have hw : R ∈ (execStateAfter g initState pre).written :=
      (mem_written_after g pre initState R).mpr (Or.inr hwr)
    obtain ⟨bufs, texs, hshape, hmem, -⟩ :=
      buf_hazard_emits g (execStateAfter g initState pre) b R size hbuf hw huse
    refine ⟨bufs, texs, hshape, hmem, ?_⟩
    rw [execute_split g pre b suf htopo, hshape]

/-- Witness for C9 on the chain graph: pass 0 writes buffer 0, and the second
reader (pass 2, with pass 1 in between that only reads) still receives its own
barrier; the written set after the prefix retains resource 0. -/
theorem claim_C9_witness :
    (0 ∈ (execStateAfter gChain ⟨[0], []⟩ [1, 2]).written) ∧
    ∃ bufs texs,
      (execPass gChain (execStateAfter gChain initState [0, 1]) 2).1 =
        CmdBuf.barrier bufs texs :: gChain.passCmds 2 ∧
      (0, 0, 8) ∈ bufs ∧
      gChain.execute = .ok (execLoop gChain initState [0, 1] ++
        (CmdBuf.barrier bufs texs :: gChain.passCmds 2) ++
        execLoop gChain (execPass gChain (execStateAfter gChain initState [0, 1]) 2).2 []) :=
  ⟨claim_C9.1 gChain [1, 2] ⟨[0], []⟩ 0 (by decide),
   claim_C9.2 gChain [0, 1] 2 [] 0 8 (by rfl) (by rfl)
     ⟨0, by decide, (0, .Write, none), by decide, by decide⟩
     ⟨(0, .Read, none), by decide, by decide⟩⟩

/-! ## Claim theorems: C5, C6, C7, C8, C10 -/

/-- Claim C5: after processing a pass with an arbitrary usage list, every
resource used with Write or ReadWrite is in the written set; a texture the
pass writes with a hint (declared once for that resource) gets tracked layout
after_pass_layout (or need_layout if absent); a Read-only hinted texture usage
sets the tracked layout to need_layout.  Consequently Scenario D
emits no barrier at all and Scenario E emits exactly one barrier transitioning
ColorAttachment to ShaderReadOnly before pass B. -/
theorem claim_C5 :
    (∀ (g : RenderGraph) (st : HazardState) (i r : Nat),
      r ∈ (execPass g st i).2.written ↔
        r ∈ st.written ∨ ∃ u ∈ g.usageOf i, u.1 = r ∧ u.2.1.is_write = true) ∧
    (∀ (g : RenderGraph) (st : HazardState) (i r : Nat) (ru : ResourceUsage)
        (hint : TextureBarrierHint),
      (g.usageOf i).countP (fun u => u.1 == r) = 1 →
      (r, ru, some hint) ∈ g.usageOf i →
      g.lookupRes r = some .Texture →
      ru.is_write = true →
      getLayout (execPass g st i).2.texLayout r = hint.after_pass_layout.getD hint.need_layout) ∧
    (∀ (g : RenderGraph) (st : HazardState) (i r : Nat) (hint : TextureBarrierHint),
      (g.usageOf i).countP (fun u => u.1 == r) = 1 →
      (r, .Read, some hint) ∈ g.usageOf i →
      g.lookupRes r = some .Texture →
      getLayout (execPass g st i).2.texLayout r = hint.need_layout) ∧
    gScenD.execute = .ok [.pass 0 0, .pass 1 0] ∧
    gScenE.execute =
      .ok [.pass 0 0, .barrier [] [(0, .ColorAttachment, .ShaderReadOnly)], .pass 1 0] := by
  refine ⟨fun g st i r => execPass_written g st i r, ?_, ?_, by rfl, by rfl⟩
  · intro g st i r ru hint hcount hmem hres hw
    obtain ⟨l1, l2, heq, h1, h2⟩ :=
      usage_split_unique (g.usageOf i) r (r, ru, some hint) hcount hmem rfl
    show getLayout ((g.usageOf i).foldl (updStep g) st).texLayout r = _
    rw [heq, List.foldl_append, List.foldl_cons, foldl_layout_ne g r l2 _ h2,
      updStep_texLayout_write g (l1.foldl (updStep g) st) r ru hint hres hw]
    exact getLayout_setLayout_self ..
  · intro g st i r hint hcount hmem hres
    obtain ⟨l1, l2, heq, h1, h2⟩ :=
      usage_split_unique (g.usageOf i) r (r, .Read, some hint) hcount hmem rfl
    show getLayout ((g.usageOf i).foldl (updStep g) st).texLayout r = _
    rw [heq, List.foldl_append, List.foldl_cons, foldl_layout_ne g r l2 _ h2,
      updStep_texLayout_read g (l1.foldl (updStep g) st) r hint hres]
    exact getLayout_setLayout_self ..

/-- Witness for C5 at concrete inputs: the written-set update on Scenario B,
and the write- and read-layout updates on the multi-usage graph, where the
pass also declares a second (buffer) resource. -/
theorem claim_C5_witness :
    (5 ∈ (execPass gMulti initState 0).2.written ↔
      5 ∈ initState.written ∨ ∃ u ∈ gMulti.usageOf 0, u.1 = 5 ∧ u.2.1.is_write = true) ∧
    getLayout (execPass gMulti initState 0).2.texLayout 0 =
      (some ImageLayout.ShaderReadOnly).getD ImageLayout.ColorAttachment ∧
    getLayout (execPass gMulti (execPass gMulti initState 0).2 1).2.texLayout 0 =
      ImageLayout.ShaderReadOnly := by
  refine ⟨claim_C5.1 gMulti initState 0 5, ?_, ?_⟩
  · exact claim_C5.2.1 gMulti initState 0 0 .Write ⟨.ColorAttachment, some .ShaderReadOnly⟩
      (by decide) (by decide) (by decide) (by decide)
  · exact claim_C5.2.2.1 gMulti (execPass gMulti initState 0).2 1 0 ⟨.ShaderReadOnly, none⟩
      (by decide) (by decide) (by decide)

/-- Claim C6: the scheduler picks simultaneously-ready nodes last-in-first-out;
with no edges the execution order is exactly the reverse of registration
order, and in the three-node example with the single edge (0,2) the two
initially-ready nodes 0 and 1 are scheduled in reverse registration order. -/
theorem claim_C6 :
    (∀ g : RenderGraph, g.edges = [] →
      g.topological_order = .ok (List.range g.nodes.length).reverse) ∧
    gTie.topological_order = .ok [1, 0, 2] := by
  exact ⟨topological_order_no_edges, by rfl⟩

/-- Witness for C6: a five-node edge-free graph is scheduled in reverse
registration order. -/
theorem claim_C6_witness :
    (RenderGraph.topological_order ⟨List.replicate 5 ⟨[], 1⟩, [], [], 5, 0⟩ : Except _ _) =
      .ok (List.range 5).reverse :=
  claim_C6.1 ⟨List.replicate 5 ⟨[], 1⟩, [], [], 5, 0⟩ rfl

/-- Counterexample for C7: the transition (Undefined, General) is not listed in
the spec's layout table, yet the synthesizer does not return the ALL_COMMANDS
fallback for it — it returns a specific top-of-pipe to compute-shader
barrier. -/
theorem claim_C7_counterexample :
    image_barrier_stages_access .Undefined .General false =
      (TOP_OF_PIPE, ACCESS_NONE, COMPUTE_SHADER, SHADER_WRITE) ∧
    image_barrier_stages_access .Undefined .General false ≠ fallback_barrier := by
  decide

/-- Claim C7 (amended): the synthesizer realizes exactly the spec's transition
table with the is_depth substitution, extended with specific entries for
TransferSrc to ShaderReadOnly and Undefined to General; every pair outside
this extended table gets the ALL_COMMANDS / MEMORY_READ|MEMORY_WRITE
fallback. -/
theorem claim_C7 :
    ∀ (old_layout new_layout : ImageLayout) (is_depth : Bool),
      image_barrier_stages_access old_layout new_layout is_depth =
        spec_layout_table old_layout new_layout is_depth := by
  intro o n d
  cases o <;> cases n <;> cases d <;> rfl

/-- Claim C8: add_edge is total and simply records the pair; an edge with an
out-of-range endpoint imposes no constraint — the scheduler and executor
behave exactly as without it, so it can never cause a CycleError. -/
theorem claim_C8 :
    ∀ (g : RenderGraph) (a b : Nat),
      (g.add_edge a b).edges = g.edges ++ [(a, b)] ∧
      (¬(a < g.nodes.length ∧ b < g.nodes.length) →
        (g.add_edge a b).topological_order = g.topological_order ∧
        (g.add_edge a b).execute = g.execute) := by
  intro g a b
  refine ⟨rfl, fun h => ?_⟩
  have hrun : topoOrderRun g.nodes.length (g.edges ++ [(a, b)]) =
      topoOrderRun g.nodes.length g.edges := by
    unfold topoOrderRun
    rw [buildDegrees_append_invalid _ _ _ _ h]
  have htopo : (g.add_edge a b).topological_order = g.topological_order := by
    show RenderGraph.topological_order
        ⟨g.nodes, g.edges ++ [(a, b)], g.resources, g.next_node_id, g.next_resource_id⟩ = _
    unfold RenderGraph.topological_order
    rw [show (⟨g.nodes, g.edges ++ [(a, b)], g.resources, g.next_node_id,
          g.next_resource_id⟩ : RenderGraph).edges = g.edges ++ [(a, b)] from rfl,
      show (⟨g.nodes, g.edges ++ [(a, b)], g.resources, g.next_node_id,
          g.next_resource_id⟩ : RenderGraph).nodes = g.nodes from rfl,
      hrun]
  refine ⟨htopo, ?_⟩
  unfold RenderGraph.execute
  rw [htopo]
  cases g.topological_order with
  | error e => rfl
  | ok order =>
    show Except.ok (execLoop (g.add_edge a b) initState order) =
      Except.ok (execLoop g initState order)
    rw [execLoop_add_edge]

/-- Witness for C8: the out-of-range self-loop (5, 5) on a one-node graph is
recorded but ignored: scheduling succeeds identically. -/
theorem claim_C8_witness :
    (gLoopInvalid.add_edge 5 5).edges = gLoopInvalid.edges ++ [(5, 5)] ∧
    (gLoopInvalid.add_edge 5 5).topological_order = gLoopInvalid.topological_order ∧
    (gLoopInvalid.add_edge 5 5).execute = gLoopInvalid.execute :=
  ⟨(claim_C8 gLoopInvalid 5 5).1,
   (claim_C8 gLoopInvalid 5 5).2 (by decide)⟩

/-- Claim C10: execute is deterministic in the graph's structure — two graphs
with the same nodes (hence same declared usages, registered in the same
order), the same edges and the same resources produce identical command-buffer
sequences; the id counters (the only other state) are irrelevant. -/
theorem claim_C10 :
    ∀ g1 g2 : RenderGraph, g1.nodes = g2.nodes → g1.edges = g2.edges →
      g1.resources = g2.resources → g1.execute = g2.execute := by
  rintro ⟨n1, e1, r1, a1, b1⟩ ⟨n2, e2, r2, a2, b2⟩ hn he hr
  obtain rfl : n1 = n2 := hn
  obtain rfl : e1 = e2 := he
  obtain rfl : r1 = r2 := hr
  unfold RenderGraph.execute
  have htopo : (RenderGraph.topological_order ⟨n1, e1, r1, a1, b1⟩ : Except _ _) =
      RenderGraph.topological_order ⟨n1, e1, r1, a2, b2⟩ := rfl
  rw [htopo]
  cases (RenderGraph.topological_order ⟨n1, e1, r1, a2, b2⟩ : Except _ _) with
  | error e => rfl
  | ok order =>
    show Except.ok (execLoop ⟨n1, e1, r1, a1, b1⟩ initState order) =
      Except.ok (execLoop ⟨n1, e1, r1, a2, b2⟩ initState order)
    rw [execLoop_counters]

/-- Witness for C10: two builds of the Scenario B graph with different id
counters execute identically. -/
theorem claim_C10_witness :
    ({ gScenB with next_node_id := 7, next_resource_id := 9 } : RenderGraph).execute =
      gScenB.execute :=
  claim_C10 { gScenB with next_node_id := 7, next_resource_id := 9 } gScenB rfl rfl rfl

/-! ## Generic list helpers: getD/set, positions, filter counting -/

theorem getD_set_self {α : Type} (l : List α) (i : Nat) (x d : α) (h : i < l.length) :
    (l.set i x).getD i d = x := by
  simp [List.getD, List.getElem?_set_self, h]

theorem getD_set_ne {α : Type} (l : List α) (i j : Nat) (x d : α) (h : j ≠ i) :
    (l.set i x).getD j d = l.getD j d := by
  simp [List.getD, List.getElem?_set_ne (Ne.symm h)]

theorem getD_eq_default {α : Type} (l : List α) (i : Nat) (d : α) (h : l.length ≤ i) :
    l.getD i d = d := by
  simp [List.getD, List.getElem?_eq_none h]

theorem posIn_lt_length (l : List Nat) (v : Nat) (h : v ∈ l) : posIn l v < l.length := by
  induction l with
  | nil => exact absurd h (by simp)
  | cons x xs ih =>
    unfold posIn
    by_cases hx : x = v
    · simp [hx]
    · rw [if_neg hx]
      have : v ∈ xs := by
        rcases List.mem_cons.mp h with rfl | hm
        · exact absurd rfl hx
        · exact hm
      simpa using ih this

theorem posIn_append_left (l l2 : List Nat) (v : Nat) (h : v ∈ l) :
    posIn (l ++ l2) v = posIn l v := by
  induction l with
  | nil => exact absurd h (by simp)
  | cons x xs ih =>
    show posIn (x :: (xs ++ l2)) v = _
    unfold posIn
    by_cases hx : x = v
    · simp [hx]
    · rw [if_neg hx, if_neg hx]
      have : v ∈ xs := by
        rcases List.mem_cons.mp h with rfl | hm
        · exact absurd rfl hx
        · exact hm
      rw [ih this]

theorem posIn_append_self (l : List Nat) (u : Nat) (h : u ∉ l) :
    posIn (l ++ [u]) u = l.length := by
  induction l with
  | nil => simp [posIn]
  | cons x xs ih =>
    show posIn (x :: (xs ++ [u])) u = _
    unfold posIn
    have hx : x ≠ u := fun hc => h (hc ▸ List.mem_cons_self ..)
    rw [if_neg hx, ih (fun hc => h (List.mem_cons_of_mem _ hc))]
    rfl

theorem filter_split {α : Type} (l : List α) (p q : α → Bool) :
    (l.filter p).length =
      (l.filter (fun a => p a && q a)).length + (l.filter (fun a => p a && !q a)).length := by
  induction l with
  | nil => rfl
  | cons x xs ih =>
    by_cases hp : p x
    · by_cases hq : q x
      · rw [List.filter_cons_of_pos hp, List.filter_cons_of_pos (by simp [hp, hq]),
          List.filter_cons_of_neg (by simp [hp, hq])]
        simp only [List.length_cons]
        omega
      · rw [List.filter_cons_of_pos hp, List.filter_cons_of_neg (by simp [hp, hq]),
          List.filter_cons_of_pos (by simp [hp, hq])]
        simp only [List.length_cons]
        omega
    · rw [List.filter_cons_of_neg (by simp [hp]), List.filter_cons_of_neg (by simp [hp]),
        List.filter_cons_of_neg (by simp [hp])]
      exact ih

theorem filter_length_mono {α : Type} (l : List α) (p q : α → Bool)
    (h : ∀ a ∈ l, p a = true → q a = true) :
    (l.filter p).length ≤ (l.filter q).length := by
  induction l with
  | nil => exact Nat.le_refl 0
  | cons x xs ih =>
    have ih' := ih (fun a ha => h a (List.mem_cons_of_mem _ ha))
    by_cases hp : p x
    · rw [List.filter_cons_of_pos hp,
        List.filter_cons_of_pos (h x (List.mem_cons_self ..) hp)]
      simpa using ih'
    · rw [List.filter_cons_of_neg (by simpa using hp)]
      by_cases hq : q x
      · rw [List.filter_cons_of_pos hq]
        exact Nat.le_trans ih' (by simp)
      · rw [List.filter_cons_of_neg (by simpa using hq)]
        exact ih'

theorem count_map_snd (l : List (Nat × Nat)) (v : Nat) :
    (l.map Prod.snd).count v = (l.filter (fun e => decide (e.2 = v))).length := by
  induction l with
  | nil => rfl
  | cons e es ih =>
    rw [List.map_cons, List.count_cons]
    by_cases h : e.2 = v
    · rw [List.filter_cons_of_pos (by simp [h])]
      simp only [List.length_cons]
      rw [ih]
      simp [h]
    · rw [List.filter_cons_of_neg (by simp [h])]
      rw [ih]
      simp [h]

/-! ## Closed forms for the edge scan of the scheduler -/

theorem validE_mem (n : Nat) (edges : List (Nat × Nat)) (e : Nat × Nat) :
    e ∈ validE n edges ↔ e ∈ edges ∧ e.1 < n ∧ e.2 < n := by
  unfold validE
  rw [List.mem_filter]
  simp

theorem foldl_degStep_fst_length (n : Nat) :
    ∀ (es : List (Nat × Nat)) (acc : List Nat × List (List Nat)),
      (es.foldl (degStep n) acc).1.length = acc.1.length := by
  intro es
  induction es with
  | nil => intro acc; rfl
  | cons e es ih =>
    intro acc
    rw [List.foldl_cons, ih]
    unfold degStep
    split
    · simp
    · rfl

theorem foldl_degStep_snd_length (n : Nat) :
    ∀ (es : List (Nat × Nat)) (acc : List Nat × List (List Nat)),
      (es.foldl (degStep n) acc).2.length = acc.2.length := by
  intro es
  induction es with
  | nil => intro acc; rfl
  | cons e es ih =>
    intro acc
    rw [List.foldl_cons, ih]
    unfold degStep
    split
    · simp
    · rfl

theorem foldl_degStep_fst_getD (n : Nat) :
    ∀ (es : List (Nat × Nat)) (acc : List Nat × List (List Nat)) (v : Nat),
      acc.1.length = n → v < n →
      (es.foldl (degStep n) acc).1.getD v 0 =
        acc.1.getD v 0 + ((validE n es).filter (fun e => decide (e.2 = v))).length := by
  intro es
  induction es with
  | nil =>
    intro acc v _ _
    simp [validE]
  | cons e es ih =>
    intro acc v hlen hv
    rw [List.foldl_cons]
    have hvE : validE n (e :: es) =
        if (decide (e.1 < n ∧ e.2 < n)) = true then e :: validE n es else validE n es := by
      unfold validE
      rw [List.filter_cons]
    by_cases hval : e.1 < n ∧ e.2 < n
    · have hstep : degStep n acc e =
          (acc.1.set e.2 (acc.1.getD e.2 0 + 1), acc.2.set e.1 (acc.2.getD e.1 [] ++ [e.2])) := by
        unfold degStep
        rw [if_pos hval]
      rw [hstep, ih _ v (by simpa using hlen) hv]
      rw [hvE, if_pos (by simpa using hval)]
      by_cases hev : e.2 = v
      · rw [List.filter_cons_of_pos (by simp [hev])]
        have : (acc.1.set e.2 (acc.1.getD e.2 0 + 1)).getD v 0 = acc.1.getD v 0 + 1 := by
          subst hev
          exact getD_set_self acc.1 e.2 _ 0 (hlen ▸ hval.2)
        rw [this]
        simp only [List.length_cons]
        omega
      · rw [List.filter_cons_of_neg (by simp [hev])]
        rw [getD_set_ne acc.1 e.2 v _ 0 (fun hc => hev hc.symm)]
    · have hstep : degStep n acc e = acc := by
        unfold degStep
        rw [if_neg hval]
      rw [hstep, ih _ v hlen hv, hvE, if_neg (by simpa using hval)]

theorem foldl_degStep_snd_getD (n : Nat) :
    ∀ (es : List (Nat × Nat)) (acc : List Nat × List (List Nat)) (u : Nat),
      acc.2.length = n → u < n →
      (es.foldl (degStep n) acc).2.getD u [] =
        acc.2.getD u [] ++ ((validE n es).filter (fun e => decide (e.1 = u))).map Prod.snd := by
  intro es
  induction es with
  | nil =>
    intro acc u _ _
    simp [validE]
  | cons e es ih =>
    intro acc u hlen hu
    rw [List.foldl_cons]
    have hvE : validE n (e :: es) =
        if (decide (e.1 < n ∧ e.2 < n)) = true then e :: validE n es else validE n es := by
      unfold validE
      rw [List.filter_cons]
    by_cases hval : e.1 < n ∧ e.2 < n
    · have hstep : degStep n acc e =
          (acc.1.set e.2 (acc.1.getD e.2 0 + 1), acc.2.set e.1 (acc.2.getD e.1 [] ++ [e.2])) := by
        unfold degStep
        rw [if_pos hval]
      rw [hstep, ih _ u (by simpa using hlen) hu]
      rw [hvE, if_pos (by simpa using hval)]
      by_cases heu : e.1 = u
      · rw [List.filter_cons_of_pos (by simp [heu])]
        have : (acc.2.set e.1 (acc.2.getD e.1 [] ++ [e.2])).getD u [] =
            acc.2.getD u [] ++ [e.2] := by
          subst heu
          exact getD_set_self acc.2 e.1 _ [] (hlen ▸ hval.1)
        rw [this, List.map_cons]
        simp
      · rw [List.filter_cons_of_neg (by simp [heu])]
        rw [getD_set_ne acc.2 e.1 u _ [] (fun hc => heu hc.symm)]
    · have hstep : degStep n acc e = acc := by
        unfold degStep
        rw [if_neg hval]
      rw [hstep, ih _ u hlen hu, hvE, if_neg (by simpa using hval)]

theorem buildDegrees_fst_length (n : Nat) (es : List (Nat × Nat)) :
    (buildDegrees n es).1.length = n := by
  unfold buildDegrees
  rw [foldl_degStep_fst_length]
  simp

theorem buildDegrees_snd_length (n : Nat) (es : List (Nat × Nat)) :
    (buildDegrees n es).2.length = n := by
  unfold buildDegrees
  rw [foldl_degStep_snd_length]
  simp

theorem buildDegrees_fst_getD (n : Nat) (es : List (Nat × Nat)) (v : Nat) (hv : v < n) :
    (buildDegrees n es).1.getD v 0 =
      ((validE n es).filter (fun e => decide (e.2 = v))).length := by
  unfold buildDegrees
  rw [foldl_degStep_fst_getD n es _ v (by simp) hv]
  simp [getD_replicate_nat]

theorem buildDegrees_snd_getD (n : Nat) (es : List (Nat × Nat)) (u : Nat) (hu : u < n) :
    (buildDegrees n es).2.getD u [] =
      ((validE n es).filter (fun e => decide (e.1 = u))).map Prod.snd := by
  unfold buildDegrees
  rw [foldl_degStep_snd_getD n es _ u (by simp) hu]
  simp [getD_replicate_nil]

/-! ## Specification of the successor-processing inner loop -/

theorem processSuccs_spec :
    ∀ (succs inDeg stack : List Nat),
      (∀ v, succs.count v ≤ inDeg.getD v 0) →
      (processSuccs inDeg stack succs).1.length = inDeg.length ∧
      (∀ v, (processSuccs inDeg stack succs).1.getD v 0 =
        inDeg.getD v 0 - succs.count v) ∧
      ∃ pushed : List Nat, (processSuccs inDeg stack succs).2 = pushed ++ stack ∧
        pushed.Nodup ∧
        (∀ v, v ∈ pushed ↔ (0 < succs.count v ∧ inDeg.getD v 0 = succs.count v)) := by
  intro succs
  induction succs with
  | nil =>
    intro inDeg stack _
    exact ⟨rfl, fun v => by simp [processSuccs], [], rfl, List.nodup_nil, fun v => by simp⟩
  | cons v vs ih =>
    intro inDeg stack h
    have hv1 : 1 ≤ (v :: vs).count v := by simp [List.count_cons]
    have hvpos : 1 ≤ inDeg.getD v 0 := Nat.le_trans hv1 (h v)
    have hvlt : v < inDeg.length := by
      by_contra hge
      rw [getD_eq_default _ _ _ (Nat.le_of_not_lt hge)] at hvpos
      omega
    have hget_self : (inDeg.set v (inDeg.getD v 0 - 1)).getD v 0 = inDeg.getD v 0 - 1 :=
      getD_set_self inDeg v _ 0 hvlt
    have hget_ne : ∀ w, w ≠ v →
        (inDeg.set v (inDeg.getD v 0 - 1)).getD w 0 = inDeg.getD w 0 :=
      fun w hw => getD_set_ne inDeg v w _ 0 hw
    have hcount_self : (v :: vs).count v = vs.count v + 1 := by simp [List.count_cons]
    have hcount_ne : ∀ w, w ≠ v → (v :: vs).count w = vs.count w := by
      intro w hw
      simp [List.count_cons, hw]
    have h' : ∀ w, vs.count w ≤ (inDeg.set v (inDeg.getD v 0 - 1)).getD w 0 := by
      intro w
      by_cases hw : w = v
      · subst hw
        rw [hget_self]
        have hcw := h w
        rw [hcount_self] at hcw
        omega
      · rw [hget_ne w hw]
        have hcw := h w
        rw [hcount_ne w hw] at hcw
        exact hcw
    obtain ⟨hL, hD, pushed', hs2, hnd', hmem'⟩ :=
      ih (inDeg.set v (inDeg.getD v 0 - 1))
        (if inDeg.getD v 0 - 1 = 0 then v :: stack else stack) h'
    have hstep : processSuccs inDeg stack (v :: vs) =
        processSuccs (inDeg.set v (inDeg.getD v 0 - 1))
          (if inDeg.getD v 0 - 1 = 0 then v :: stack else stack) vs := rfl
    rw [hstep]
    refine ⟨by rw [hL]; simp, ?_, ?_⟩
    · intro w
      rw [hD w]
      by_cases hw : w = v
      · subst hw
        rw [hget_self, hcount_self]
        omega
      · rw [hget_ne w hw, hcount_ne w hw]
    · by_cases hd0 : inDeg.getD v 0 - 1 = 0
      · rw [if_pos hd0] at hs2
        have hIv : inDeg.getD v 0 = 1 := by omega
        have hvs0 : vs.count v = 0 := by
          have := h' v
          rw [hget_self, hd0] at this
          omega
        have hvnp : v ∉ pushed' := by
          intro hc
          obtain ⟨hpos, heq⟩ := (hmem' v).mp hc
          rw [hget_self, hd0] at heq
          omega
        rw [if_pos hd0]
        refine ⟨pushed' ++ [v], ?_, ?_, ?_⟩
        · rw [hs2]
          simp
        · exact List.nodup_append.mpr ⟨hnd', by simp, fun a ha hb => by
            rw [List.mem_singleton.mp hb] at ha
            exact hvnp ha⟩
        · intro w
          by_cases hw : w = v
          · subst hw
            constructor
            · intro _
              rw [hcount_self, hvs0, hIv]
              omega
            · intro _
              simp
          · rw [hcount_ne w hw]
            constructor
            · intro hmem
              rcases List.mem_append.mp hmem with hm | hm
              · obtain ⟨hpos, heq⟩ := (hmem' w).mp hm
                rw [hget_ne w hw] at heq
                exact ⟨hpos, heq⟩
              · exact absurd (List.mem_singleton.mp hm) hw
            · rintro ⟨hpos, heq⟩
              apply List.mem_append_left
              apply (hmem' w).mpr
              rw [hget_ne w hw]
              exact ⟨hpos, heq⟩
      · rw [if_neg hd0] at hs2
        rw [if_neg hd0]
        refine ⟨pushed', hs2, hnd', ?_⟩
        intro w
        by_cases hw : w = v
        · subst hw
          rw [hmem' w, hget_self, hcount_self]
          constructor
          · rintro ⟨hpos, heq⟩
            omega
          · rintro ⟨-, heq⟩
            omega
        · rw [hmem' w, hget_ne w hw, hcount_ne w hw]

/-! ## Remaining-degree arithmetic -/

theorem remDeg_order_nil (E : List (Nat × Nat)) (v : Nat) :
    remDeg E [] v = (E.filter (fun e => decide (e.2 = v))).length := by
  unfold remDeg
  exact congrArg List.length (List.filter_congr (fun e _ => by simp))

theorem remDeg_split (E : List (Nat × Nat)) (order : List Nat) (u v : Nat) (hu : u ∉ order) :
    remDeg E order v = cntEdge E u v + remDeg E (order ++ [u]) v := by
  unfold remDeg cntEdge
  rw [filter_split E (fun e => decide (e.2 = v) && !decide (e.1 ∈ order))
    (fun e => decide (e.1 = u))]
  congr 1
  · exact congrArg List.length (List.filter_congr (fun e _ => by
      by_cases h1 : e.1 = u <;> by_cases h2 : e.2 = v <;> simp [h1, h2, hu]))
  · exact congrArg List.length (List.filter_congr (fun e _ => by
      by_cases h1 : e.1 = u <;> by_cases h2 : e.2 = v <;> by_cases h3 : e.1 ∈ order <;>
        simp [h1, h2, h3, hu, List.mem_append]))

theorem remDeg_append (E : List (Nat × Nat)) (order : List Nat) (u v : Nat) (hu : u ∉ order) :
    remDeg E (order ++ [u]) v = remDeg E order v - cntEdge E u v := by
  have := remDeg_split E order u v hu
  omega

theorem cntEdge_le_remDeg (E : List (Nat × Nat)) (order : List Nat) (u v : Nat)
    (hu : u ∉ order) : cntEdge E u v ≤ remDeg E order v := by
  have := remDeg_split E order u v hu
  omega

theorem remDeg_zero_iff (E : List (Nat × Nat)) (order : List Nat) (u : Nat) :
    remDeg E order u = 0 ↔ ∀ e ∈ E, e.2 = u → e.1 ∈ order := by
  unfold remDeg
  rw [List.length_eq_zero, List.filter_eq_nil_iff]
  constructor
  · intro h e he h2
    by_contra hc
    exact h e he (by simp [h2, hc])
  · intro h e he
    simp only [Bool.and_eq_true, decide_eq_true_eq, Bool.not_eq_true', decide_eq_false_iff_not]
    rintro ⟨h2, h3⟩
    exact h3 (h e he h2)

theorem remDeg_pos_elim (E : List (Nat × Nat)) (order : List Nat) (v : Nat)
    (h : remDeg E order v ≠ 0) : ∃ e ∈ E, e.2 = v ∧ e.1 ∉ order := by
  unfold remDeg at h
  have hne : (E.filter (fun e => decide (e.2 = v) && !decide (e.1 ∈ order))) ≠ [] := by
    intro hc
    rw [hc] at h
    exact h rfl
  obtain ⟨e, he⟩ := List.exists_mem_of_ne_nil _ hne
  have := List.mem_filter.mp he
  refine ⟨e, this.1, ?_, ?_⟩
  · have := this.2
    simp at this
    exact this.1
  · have := this.2
    simp at this
    exact this.2

theorem count_succs_eq (E : List (Nat × Nat)) (u v : Nat) :
    ((E.filter (fun e => decide (e.1 = u))).map Prod.snd).count v = cntEdge E u v := by
  rw [count_map_snd, List.filter_filter]
  unfold cntEdge
  apply congrArg
  apply List.filter_congr
  intro e _
  by_cases h1 : e.1 = u <;> by_cases h2 : e.2 = v <;> simp [h1, h2]

/-! ## Cardinality helpers for node lists -/

theorem all_mem_of_nodup (l : List Nat) (n : Nat) (hnd : l.Nodup) (hlt : ∀ v ∈ l, v < n)
    (hlen : n ≤ l.length) : ∀ v, v < n → v ∈ l := by
  intro v hv
  have hsub : l.toFinset ⊆ Finset.range n := by
    intro w hw
    exact Finset.mem_range.mpr (hlt w (List.mem_toFinset.mp hw))
  have hcard : l.toFinset.card = l.length := List.toFinset_card_of_nodup hnd
  have heq : l.toFinset = Finset.range n :=
    Finset.eq_of_subset_of_card_le hsub (by rw [hcard, Finset.card_range]; exact hlen)
  have : v ∈ l.toFinset := by
    rw [heq]
    exact Finset.mem_range.mpr hv
  exact List.mem_toFinset.mp this

theorem length_le_of_nodup (l : List Nat) (n : Nat) (hnd : l.Nodup)
    (hlt : ∀ v ∈ l, v < n) : l.length ≤ n := by
  have hsub : l.toFinset ⊆ Finset.range n := by
    intro w hw
    exact Finset.mem_range.mpr (hlt w (List.mem_toFinset.mp hw))
  have hcard : l.toFinset.card = l.length := List.toFinset_card_of_nodup hnd
  have := Finset.card_le_card hsub
  rw [hcard, Finset.card_range] at this
  exact this

theorem exists_not_mem_of_length_ne (l : List Nat) (n : Nat) (hnd : l.Nodup)
    (hlt : ∀ v ∈ l, v < n) (hne : l.length ≠ n) : ∃ v, v < n ∧ v ∉ l := by
  by_contra hc
  push_neg at hc
  have hall : ∀ v, v < n → v ∈ l := hc
  have : n ≤ l.length := by
    have hsub : Finset.range n ⊆ l.toFinset := by
      intro w hw
      exact List.mem_toFinset.mpr (hall w (Finset.mem_range.mp hw))
    have hcard : l.toFinset.card = l.length := List.toFinset_card_of_nodup hnd
    have := Finset.card_le_card hsub
    rw [hcard, Finset.card_range] at this
    exact this
  have := length_le_of_nodup l n hnd hlt
  omega

/-! ## The main loop preserves the invariant and yields TopoFinal -/

theorem topoLoop_spec (n : Nat) (E : List (Nat × Nat)) (outE : List (List Nat))
    (hE : ∀ e ∈ E, e.1 < n ∧ e.2 < n)
    (houtE : ∀ u, u < n →
      outE.getD u [] = (E.filter (fun e => decide (e.1 = u))).map Prod.snd) :
    ∀ (fuel : Nat) (inDeg stack order : List Nat),
      TopoInv n E inDeg stack order →
      n ≤ fuel + order.length →
      ∃ rest, topoLoop outE fuel inDeg stack order = order ++ rest ∧
        TopoFinal n E (order ++ rest) := by
  intro fuel
  induction fuel with
  | zero =>
    intro inDeg stack order inv hfuel
    refine ⟨[], by simp [topoLoop], ?_⟩
    rw [List.append_nil]
    have hnd : order.Nodup := inv.nodup.of_append_left
    have hall : ∀ v, v < n → v ∈ order :=
      all_mem_of_nodup order n hnd inv.order_lt (by omega)
    exact ⟨hnd, inv.order_lt, inv.edge_ord,
      fun v hv hnv => absurd (hall v hv) hnv⟩
  | succ fuel ih =>
    intro inDeg stack order inv hfuel
    cases stack with
    | nil =>
      refine ⟨[], by simp [topoLoop], ?_⟩
      rw [List.append_nil]
      have hnd : order.Nodup := inv.nodup.of_append_left
      refine ⟨hnd, inv.order_lt, inv.edge_ord, ?_⟩
      intro v hv hnv
      have hz := inv.zero_iff v hv hnv
      have hne : inDeg.getD v 0 ≠ 0 := fun h0 => by simpa using hz.mp h0
      rw [inv.deg v hv] at hne
      exact remDeg_pos_elim E order v hne
    | cons u s =>
      have hu_mem_stack : u ∈ u :: s := List.mem_cons_self ..
      have hu_lt : u < n := inv.stack_lt u hu_mem_stack
      obtain ⟨hnd_o, hnd_us, hdisj⟩ := List.nodup_append.mp inv.nodup
      have hu_no : u ∉ order := fun hc => hdisj hc hu_mem_stack
      have hdeg_u : inDeg.getD u 0 = 0 := (inv.zero_iff u hu_lt hu_no).mpr hu_mem_stack
      have hrem_u : remDeg E order u = 0 := by
        rw [← inv.deg u hu_lt]
        exact hdeg_u
      have hno_in_u : ∀ e ∈ E, e.2 = u → e.1 ∈ order := (remDeg_zero_iff E order u).mp hrem_u
      have hsuccs := houtE u hu_lt
      have hsucc_edge : ∀ v ∈ outE.getD u [], ∃ e ∈ E, e.1 = u ∧ e.2 = v := by
        intro v hv
        rw [hsuccs] at hv
        obtain ⟨e, he, hev⟩ := List.mem_map.mp hv
        have hm := List.mem_filter.mp he
        exact ⟨e, hm.1, by simpa using hm.2, hev⟩
      have hsucc_lt : ∀ v ∈ outE.getD u [], v < n := by
        intro v hv
        obtain ⟨e, he, -, hev⟩ := hsucc_edge v hv
        exact hev ▸ (hE e he).2
      have hsucc_no : ∀ v ∈ outE.getD u [], v ∉ order := by
        intro v hv hvo
        obtain ⟨e, he, heu, hev⟩ := hsucc_edge v hv
        have := (inv.edge_ord e he (hev ▸ hvo)).1
        exact hu_no (heu ▸ this)
      have hsucc_ne : ∀ v ∈ outE.getD u [], v ≠ u := by
        intro v hv hvu
        obtain ⟨e, he, heu, hev⟩ := hsucc_edge v hv
        have := hno_in_u e he (hvu ▸ hev)
        exact hu_no (heu ▸ this)
      have hcnt : ∀ v, (outE.getD u []).count v = cntEdge E u v := by
        intro v
        rw [hsuccs]
        exact count_succs_eq E u v
      have hcnt_le : ∀ v, (outE.getD u []).count v ≤ inDeg.getD v 0 := by
        intro v
        by_cases hc0 : (outE.getD u []).count v = 0
        · omega
        · have hvmem : v ∈ outE.getD u [] := List.count_pos_iff.mp (by omega)
          have hvlt := hsucc_lt v hvmem
          have hvno := hsucc_no v hvmem
          rw [inv.deg v hvlt, hcnt v]
          exact cntEdge_le_remDeg E order u v hu_no
      obtain ⟨hL, hD, pushed, hs2, hndp, hmemp⟩ :=
        processSuccs_spec (outE.getD u []) inDeg s hcnt_le
      have hpush_succ : ∀ v ∈ pushed, v ∈ outE.getD u [] := by
        intro v hv
        have := ((hmemp v).mp hv).1
        exact List.count_pos_iff.mp (by omega)
      have hpush_no : ∀ v ∈ pushed, v ∉ order := fun v hv => hsucc_no v (hpush_succ v hv)
      have hpush_ne : ∀ v ∈ pushed, v ≠ u := fun v hv => hsucc_ne v (hpush_succ v hv)
      have hpush_ns : ∀ v ∈ pushed, v ∉ s := by
        intro v hv hvs
        have hvlt := hsucc_lt v (hpush_succ v hv)
        have hvno := hsucc_no v (hpush_succ v hv)
        have h0 : inDeg.getD v 0 = 0 :=
          (inv.zero_iff v hvlt hvno).mpr (List.mem_cons_of_mem _ hvs)
        have := (hmemp v).mp hv
        omega
      have hinv' : TopoInv n E (processSuccs inDeg s (outE.getD u [])).1
          (processSuccs inDeg s (outE.getD u [])).2 (order ++ [u]) := by
        constructor
        · rw [hL]
          exact inv.len_eq
        · rw [hs2]
          intro v hv
          rcases List.mem_append.mp hv with hp | hs'
          · exact hsucc_lt v (hpush_succ v hp)
          · exact inv.stack_lt v (List.mem_cons_of_mem _ hs')
        · intro v hv
          rcases List.mem_append.mp hv with ho | hu'
          · exact inv.order_lt v ho
          · rw [List.mem_singleton.mp hu']
            exact hu_lt
        · rw [hs2]
          have hord : (order ++ [u]) ++ s = order ++ u :: s := by
            rw [List.append_assoc]
            rfl
          have hrhs : (pushed ++ ((order ++ [u]) ++ s)).Nodup := by
            rw [hord]
            refine List.nodup_append.mpr ⟨hndp, inv.nodup, ?_⟩
            intro a ha hb
            rcases List.mem_append.mp hb with ho | hus
            · exact hpush_no a ha ho
            · rcases List.mem_cons.mp hus with hceq | hs'
              · exact hpush_ne a ha hceq
              · exact hpush_ns a ha hs'
          have hperm : List.Perm ((order ++ [u]) ++ (pushed ++ s))
              (pushed ++ ((order ++ [u]) ++ s)) := by
            have h1 : (order ++ [u]) ++ (pushed ++ s) = ((order ++ [u]) ++ pushed) ++ s :=
              (List.append_assoc (order ++ [u]) pushed s).symm
            have h3 : (pushed ++ (order ++ [u])) ++ s = pushed ++ ((order ++ [u]) ++ s) :=
              List.append_assoc pushed (order ++ [u]) s
            rw [h1, ← h3]
            exact List.perm_append_comm.append_right s
          exact hperm.nodup_iff.mpr hrhs
        · intro v hv
          rw [hD v, inv.deg v hv, hcnt v, remDeg_append E order u v hu_no]
        · intro v hv hvo'
          have hvnord : v ∉ order := fun hc => hvo' (List.mem_append_left _ hc)
          have hvne_u : v ≠ u := fun hc => hvo'
            (by rw [hc]; exact List.mem_append_right _ (List.mem_singleton.mpr rfl))
          rw [hD v, hs2]
          constructor
          · intro h0
            by_cases hc0 : (outE.getD u []).count v = 0
            · have hz : inDeg.getD v 0 = 0 := by omega
              have hmem := (inv.zero_iff v hv hvnord).mp hz
              rcases List.mem_cons.mp hmem with hceq | hs'
              · exact absurd hceq hvne_u
              · exact List.mem_append_right _ hs'
            · have hle := hcnt_le v
              exact List.mem_append_left _ ((hmemp v).mpr ⟨by omega, by omega⟩)
          · intro hmem
            rcases List.mem_append.mp hmem with hp | hs'
            · have := (hmemp v).mp hp
              omega
            · have h0 : inDeg.getD v 0 = 0 :=
                (inv.zero_iff v hv hvnord).mpr (List.mem_cons_of_mem _ hs')
              have hle := hcnt_le v
              omega
        · intro e he hemem
          rcases List.mem_append.mp hemem with ho | hu'
          · obtain ⟨h1, h2⟩ := inv.edge_ord e he ho
            refine ⟨List.mem_append_left _ h1, ?_⟩
            rw [posIn_append_left order [u] e.1 h1, posIn_append_left order [u] e.2 ho]
            exact h2
          · have heu : e.2 = u := List.mem_singleton.mp hu'
            have h1 : e.1 ∈ order := hno_in_u e he heu
            refine ⟨List.mem_append_left _ h1, ?_⟩
            rw [posIn_append_left order [u] e.1 h1, heu, posIn_append_self order u hu_no]
            exact posIn_lt_length order e.1 h1
      have hfuel' : n ≤ fuel + (order ++ [u]).length := by
        rw [List.length_append]
        simp only [List.length_cons, List.length_nil]
        omega
      obtain ⟨rest2, hres, hfin⟩ := ih (processSuccs inDeg s (outE.getD u [])).1
        (processSuccs inDeg s (outE.getD u [])).2 (order ++ [u]) hinv' hfuel'
      have hassoc : (order ++ [u]) ++ rest2 = order ++ u :: rest2 := by
        rw [List.append_assoc]
        rfl
      refine ⟨u :: rest2, ?_, ?_⟩
      · have hstep : topoLoop outE (fuel + 1) inDeg (u :: s) order =
            topoLoop outE fuel (processSuccs inDeg s (outE.getD u [])).1
              (processSuccs inDeg s (outE.getD u [])).2 (order ++ [u]) := rfl
        rw [hstep, hres, hassoc]
      · rw [← hassoc]
        exact hfin

/-! ## Scheduler specification -/

theorem topoOrderRun_spec (n : Nat) (edges : List (Nat × Nat)) :
    TopoFinal n (validE n edges) (topoOrderRun n edges) := by
  have hE : ∀ e ∈ validE n edges, e.1 < n ∧ e.2 < n := by
    intro e he
    exact ((validE_mem n edges e).mp he).2
  have houtE : ∀ u, u < n → (buildDegrees n edges).2.getD u [] =
      ((validE n edges).filter (fun e => decide (e.1 = u))).map Prod.snd :=
    fun u hu => buildDegrees_snd_getD n edges u hu
  have hinv : TopoInv n (validE n edges) (buildDegrees n edges).1
      ((List.range n).filter
        (fun i => decide ((buildDegrees n edges).1.getD i 0 = 0))).reverse [] := by
    constructor
    · exact buildDegrees_fst_length n edges
    · intro v hv
      rw [List.mem_reverse] at hv
      exact List.mem_range.mp (List.mem_filter.mp hv).1
    · intro v hv
      exact absurd hv (by simp)
    · rw [List.nil_append]
      exact List.nodup_reverse.mpr ((List.nodup_range n).filter _)
    · intro v hv
      rw [buildDegrees_fst_getD n edges v hv, remDeg_order_nil]
    · intro v hv _
      rw [List.mem_reverse, List.mem_filter]
      constructor
      · intro h0
        exact ⟨List.mem_range.mpr hv, by simpa using h0⟩
      · rintro ⟨-, h0⟩
        simpa using h0
    · intro e _ hmem
      exact absurd hmem (by simp)
  obtain ⟨rest, heq, hfin⟩ := topoLoop_spec n (validE n edges) (buildDegrees n edges).2
    hE houtE n (buildDegrees n edges).1 _ [] hinv (by simp)
  have hrun : topoOrderRun n edges = rest := by
    unfold topoOrderRun
    rw [heq]
    rfl
  rw [hrun]
  have h2 : ([] : List Nat) ++ rest = rest := rfl
  rw [h2] at hfin
  exact hfin

theorem topological_order_ok_elim (g : RenderGraph) (order : List Nat)
    (h : g.topological_order = .ok order) :
    order = topoOrderRun g.nodes.length g.edges ∧ order.length = g.nodes.length := by
  unfold RenderGraph.topological_order at h
  split at h
  · injection h with h
    subst h
    exact ⟨rfl, by assumption⟩
  · exact absurd h (by simp)

theorem topological_order_spec (g : RenderGraph) (order : List Nat)
    (h : g.topological_order = .ok order) :
    order.Nodup ∧ (∀ v, v ∈ order ↔ v < g.nodes.length) ∧ order.length = g.nodes.length ∧
    (∀ e ∈ validE g.nodes.length g.edges,
      e.1 ∈ order ∧ e.2 ∈ order ∧ posIn order e.1 < posIn order e.2) := by
  obtain ⟨heq, hlen⟩ := topological_order_ok_elim g order h
  have hfin := topoOrderRun_spec g.nodes.length g.edges
  rw [← heq] at hfin
  have hnd := hfin.nodup
  have hmem : ∀ v, v ∈ order ↔ v < g.nodes.length := by
    intro v
    constructor
    · exact hfin.lt v
    · intro hv
      exact all_mem_of_nodup order _ hnd hfin.lt (by omega) v hv
  refine ⟨hnd, hmem, hlen, ?_⟩
  intro e he
  have h2 : e.2 ∈ order := (hmem e.2).mpr ((validE_mem ..).mp he).2.2
  obtain ⟨h1, hp⟩ := hfin.edge_ord e he h2
  exact ⟨h1, h2, hp⟩

/-! ## Cycles block the scheduler -/

theorem chain_posIn_le (E : List (Nat × Nat)) (order : List Nat)
    (hstep : ∀ e ∈ E, e.1 ∈ order ∧ posIn order e.1 < posIn order e.2) :
    ∀ (vs : List Nat) (v : Nat), List.Chain (fun a b => (a, b) ∈ E) v vs →
      posIn order v ≤ posIn order (vs.getLastD v) := by
  intro vs
  induction vs with
  | nil =>
    intro v _
    exact Nat.le_refl _
  | cons b vs' ih =>
    intro v hch
    obtain ⟨hvb, hch'⟩ := List.chain_cons.mp hch
    have h1 : posIn order v < posIn order b := (hstep (v, b) hvb).2
    have h2 := ih b hch'
    rw [List.getLastD_cons]
    omega

theorem cycle_no_order (g : RenderGraph) (c : List Nat)
    (hc : isCycle (validE g.nodes.length g.edges) c) (order : List Nat)
    (h : g.topological_order = .ok order) : False := by
  obtain ⟨-, -, -, hedge⟩ := topological_order_spec g order h
  cases c with
  | nil => exact hc
  | cons v vs =>
    obtain ⟨hchain, hclose⟩ := hc
    have hstep : ∀ e ∈ validE g.nodes.length g.edges,
        e.1 ∈ order ∧ posIn order e.1 < posIn order e.2 := by
      intro e he
      obtain ⟨h1, -, h3⟩ := hedge e he
      exact ⟨h1, h3⟩
    have hch := chain_posIn_le _ order hstep vs v hchain
    have hcl : posIn order (vs.getLastD v) < posIn order v := (hstep (vs.getLastD v, v) hclose).2
    omega

/-- Claim C3: whenever the (registered-node) edge set contains a cycle, the
scheduler and hence execute fail with the cycle error; no command buffers are
produced and no pass runs. -/
theorem claim_C3 : ∀ (g : RenderGraph) (c : List Nat),
    isCycle (validE g.nodes.length g.edges) c →
    g.topological_order = .error "Render graph has a cycle" ∧
    g.execute = .error "Render graph has a cycle" := by
  intro g c hc
  have hne : ¬((topoOrderRun g.nodes.length g.edges).length = g.nodes.length) := by
    intro hlen
    apply cycle_no_order g c hc (topoOrderRun g.nodes.length g.edges)
    unfold RenderGraph.topological_order
    rw [if_pos hlen]
  have herr : g.topological_order = .error "Render graph has a cycle" := by
    unfold RenderGraph.topological_order
    rw [if_neg hne]
  refine ⟨herr, ?_⟩
  unfold RenderGraph.execute
  rw [herr]

/-- Witness for C3 at Scenario C: a three-pass cycle of edges aborts execute
with the cycle error. -/
theorem claim_C3_witness :
    gScenC.topological_order = .error "Render graph has a cycle" ∧
    gScenC.execute = .error "Render graph has a cycle" :=
  claim_C3 gScenC [0, 1, 2]
    ⟨List.Chain.cons (by decide) (List.Chain.cons (by decide) List.Chain.nil), by decide⟩

/-! ## Acyclic edge sets schedule successfully -/

theorem chainList_chain (E : List (Nat × Nat)) (seq : Nat → Nat)
    (hstep : ∀ k, (seq (k + 1), seq k) ∈ E) :
    ∀ (len start : Nat),
      List.Chain (fun a b => (a, b) ∈ E) (seq (start + len)) (chainList seq start len) := by
  intro len
  induction len with
  | zero =>
    intro start
    exact List.Chain.nil
  | succ len ih =>
    intro start
    show List.Chain _ (seq (start + (len + 1))) (seq (start + len) :: chainList seq start len)
    exact List.chain_cons.mpr ⟨hstep (start + len), ih start⟩

theorem chainList_getLastD (seq : Nat → Nat) :
    ∀ (len start d : Nat), 1 ≤ len → (chainList seq start len).getLastD d = seq start := by
  intro len
  induction len with
  | zero =>
    intro start d h
    omega
  | succ len ih =>
    intro start d _
    show (seq (start + len) :: chainList seq start len).getLastD d = seq start
    rw [List.getLastD_cons]
    by_cases h0 : len = 0
    · subst h0
      show (chainList seq start 0).getLastD (seq (start + 0)) = seq start
      show seq (start + 0) = seq start
      rw [Nat.add_zero]
    · exact ih start _ (by omega)

theorem cycle_of_seq (E : List (Nat × Nat)) (seq : Nat → Nat)
    (hstep : ∀ k, (seq (k + 1), seq k) ∈ E) (i j : Nat) (hij : i < j)
    (heq : seq i = seq j) : ∃ c, isCycle E c := by
  refine ⟨seq j :: chainList seq (i + 1) (j - i - 1), ?_, ?_⟩
  · have hch := chainList_chain E seq hstep (j - i - 1) (i + 1)
    have harith : (i + 1) + (j - i - 1) = j := by omega
    rw [harith] at hch
    exact hch
  · by_cases h0 : j - i - 1 = 0
    · have hji : j = i + 1 := by omega
      rw [h0]
      show (seq j, seq j) ∈ E
      have hstepi := hstep i
      rw [heq, ← hji] at hstepi
      exact hstepi
    · show ((chainList seq (i + 1) (j - i - 1)).getLastD (seq j), seq j) ∈ E
      rw [chainList_getLastD seq (j - i - 1) (i + 1) (seq j) (by omega)]
      have hstepi := hstep i
      rw [heq] at hstepi
      exact hstepi

theorem acyclic_run_length (n : Nat) (edges : List (Nat × Nat))
    (hacyc : ∀ c, ¬isCycle (validE n edges) c) :
    (topoOrderRun n edges).length = n := by
  have hfin := topoOrderRun_spec n edges
  by_contra hne
  obtain ⟨v0, hv0, hv0n⟩ := exists_not_mem_of_length_ne _ n hfin.nodup hfin.lt hne
  have hpred : ∀ s : {v : Nat // v < n ∧ v ∉ topoOrderRun n edges},
      ∃ t : {v : Nat // v < n ∧ v ∉ topoOrderRun n edges},
        (t.val, s.val) ∈ validE n edges := by
    intro s
    obtain ⟨e, he, he2, he1⟩ := hfin.stuck s.val s.2.1 s.2.2
    have he1lt : e.1 < n := ((validE_mem n edges e).mp he).2.1
    refine ⟨⟨e.1, he1lt, he1⟩, ?_⟩
    show (e.1, s.val) ∈ validE n edges
    rw [← he2]
    exact he
  choose f hf using hpred
  have hseq : ∀ k, ((f^[k + 1] ⟨v0, hv0, hv0n⟩).val, (f^[k] ⟨v0, hv0, hv0n⟩).val) ∈
      validE n edges := by
    intro k
    rw [Function.iterate_succ_apply']
    exact hf _
  have hcard : Fintype.card (Fin n) < Fintype.card (Fin (n + 1)) := by simp
  obtain ⟨a, b, hab, hfab⟩ := Fintype.exists_ne_map_eq_of_card_lt
    (fun k : Fin (n + 1) =>
      (⟨(f^[k.val] ⟨v0, hv0, hv0n⟩).val, (f^[k.val] ⟨v0, hv0, hv0n⟩).2.1⟩ : Fin n)) hcard
  have hval : (f^[a.val] ⟨v0, hv0, hv0n⟩).val = (f^[b.val] ⟨v0, hv0, hv0n⟩).val := by
    have := congrArg Fin.val hfab
    simpa using this
  have hor : a.val < b.val ∨ b.val < a.val := by
    rcases Nat.lt_trichotomy a.val b.val with h | h | h
    · exact Or.inl h
    · exact absurd (Fin.ext h) hab
    · exact Or.inr h
  have hcyc : ∃ c, isCycle (validE n edges) c := by
    rcases hor with h | h
    · exact cycle_of_seq _ (fun k => (f^[k] ⟨v0, hv0, hv0n⟩).val) hseq a.val b.val h hval
    · exact cycle_of_seq _ (fun k => (f^[k] ⟨v0, hv0, hv0n⟩).val) hseq b.val a.val h hval.symm
  obtain ⟨c, hc⟩ := hcyc
  exact hacyc c hc

theorem acyclic_topological_ok (g : RenderGraph)
    (hacyc : ∀ c, ¬isCycle (validE g.nodes.length g.edges) c) :
    g.topological_order = .ok (topoOrderRun g.nodes.length g.edges) := by
  unfold RenderGraph.topological_order
  rw [if_pos (acyclic_run_length g.nodes.length g.edges hacyc)]

/-- Claim C4: for every acyclic edge set over registered nodes, execute
succeeds, and the passes run in a total order containing each of the N
registered nodes exactly once, in which the source of every valid edge appears
strictly before its target. -/
theorem claim_C4 : ∀ g : RenderGraph,
    (∀ c, ¬isCycle (validE g.nodes.length g.edges) c) →
    ∃ order cmds, g.topological_order = .ok order ∧ g.execute = .ok cmds ∧
      cmds = execLoop g initState order ∧
      order.length = g.nodes.length ∧ order.Nodup ∧
      (∀ v, v ∈ order ↔ v < g.nodes.length) ∧
      (∀ a b : Nat, (a, b) ∈ g.edges → a < g.nodes.length → b < g.nodes.length →
        a ∈ order ∧ b ∈ order ∧ posIn order a < posIn order b) := by
  intro g hacyc
  have htopo := acyclic_topological_ok g hacyc
  obtain ⟨hnd, hmem, hlen, hedge⟩ := topological_order_spec g _ htopo
  refine ⟨_, _, htopo, ?_, rfl, hlen, hnd, hmem, ?_⟩
  · unfold RenderGraph.execute
    rw [htopo]
  · intro a b hab ha hb
    have hv : (a, b) ∈ validE g.nodes.length g.edges :=
      (validE_mem ..).mpr ⟨hab, ha, hb⟩
    exact hedge (a, b) hv

theorem no_cycle_edge_single : ∀ c : List Nat, ¬isCycle [((0 : Nat), (2 : Nat))] c := by
  intro c hc
  cases c with
  | nil => exact hc
  | cons v vs =>
    obtain ⟨hchain, hclose⟩ := hc
    have hpair := List.mem_singleton.mp hclose
    have hv2 : v = 2 := congrArg Prod.snd hpair
    cases vs with
    | nil =>
      have hv0 : v = 0 := congrArg Prod.fst hpair
      omega
    | cons b vs' =>
      obtain ⟨hvb, -⟩ := List.chain_cons.mp hchain
      have hpair2 := List.mem_singleton.mp hvb
      have hv0 : v = 0 := congrArg Prod.fst hpair2
      omega

/-- Witness for C4 on the tie-break graph (three passes, one edge 0 before 2):
acyclic, so execute succeeds with a valid order. -/
theorem claim_C4_witness :
    ∃ order cmds, gTie.topological_order = .ok order ∧ gTie.execute = .ok cmds ∧
      cmds = execLoop gTie initState order ∧
      order.length = gTie.nodes.length ∧ order.Nodup ∧
      (∀ v, v ∈ order ↔ v < gTie.nodes.length) ∧
      (∀ a b : Nat, (a, b) ∈ gTie.edges → a < gTie.nodes.length → b < gTie.nodes.length →
        a ∈ order ∧ b ∈ order ∧ posIn order a < posIn order b) :=
  claim_C4 gTie (fun c => no_cycle_edge_single c)

end Lume
